import Mathlib

/-!
Verification of the multi-agent task coordinator (`agents-task-assigning`).

The development shallowly embeds the coordination engine:
* the data model and the SQLite-backed store (`src/db/schema.ts`,
  `src/db/queries.ts`) as a pure record `Store` with list-based tables;
* the DAG engine (`src/services/dag-service.ts`), including the fueled
  depth-first cycle detection (the fuel is an embedding artifact: we prove
  it is never exhausted, which is the termination statement for the
  unbounded recursion of the source);
* the ownership engine (`src/services/conflict-service.ts`);
* the task service (`src/services/task-service.ts`) with the git driver
  abstracted as an environment `GitEnv` (the driver shells out to git, so
  its outcomes are inputs to the model), and generated values (UUIDs,
  timestamps, slugs) passed as parameters.

SQL result ordering (`ORDER BY sequence ASC`) is not modelled: every
consumer in the service layer is order-insensitive (filters, `every`,
set membership), and no claim depends on row order.
-/

namespace ATA

/-- Task status domain, `TaskStatus` in `src/types/index.ts`. -/
inductive TaskStatus where
  | pending
  | assigned
  | in_progress
  | in_review
  | completed
  | failed
  | blocked
deriving DecidableEq, Repr

/-- Priority domain, `TaskPriority` in `src/types/index.ts`. -/
inductive Priority where
  | high
  | medium
  | low
deriving DecidableEq, Repr

/-- Ownership type domain, `OwnershipType` in `src/types/index.ts`. -/
inductive OwnershipType where
  | exclusive
  | shared
deriving DecidableEq, Repr

/-- Progress-log event domain, `ProgressEvent` in `src/types/index.ts`. -/
inductive ProgressEvent where
  | claimed
  | started
  | progress_update
  | rebased
  | completed
  | failed
  | merged
  | conflict_detected
deriving DecidableEq, Repr

/-- A task row (`tasks` table / `Task` interface). Timestamp columns are
opaque strings assigned by the caller (the store fills them with the wall
clock; the model receives them as parameters). -/
structure Task where
  id : String
  group_id : String
  sequence : Nat
  title : String
  description : String
  status : TaskStatus
  priority : Priority
  assigned_to : Option String
  branch_name : Option String
  worktree_path : Option String
  progress : Int
  progress_note : Option String
  created_at : String
  started_at : Option String
  completed_at : Option String
  merged_at : Option String
deriving DecidableEq, Repr

/-- A task-group row (`task_groups` table). -/
structure TaskGroup where
  id : String
  title : String
  description : String
  status : String
  created_at : String
deriving DecidableEq, Repr

/-- A file-ownership row (`task_file_ownership` table). -/
structure TaskFileOwnership where
  task_id : String
  file_pattern : String
  ownership_type : OwnershipType
deriving DecidableEq, Repr

/-- Structured JSON-like metadata values (`Record<string, unknown>` values
that survive `JSON.stringify`/`JSON.parse`). -/
inductive Json where
  | null
  | bool (b : Bool)
  | num (n : Int)
  | str (s : String)
  | arr (xs : List Json)
  | obj (fields : List (String × Json))

/-- A progress-log metadata blob: the fields of the logged record. -/
abbrev Metadata := List (String × Json)

/-- A progress-log row (`progress_logs` table), with the metadata column
held in structured form (see `addProgressLogT` for the verified TEXT-level
marshalling). -/
structure ProgressLogRow where
  id : String
  task_id : String
  event : ProgressEvent
  message : String
  metadata : Option Metadata

/-- The durable store: one list per table of the SQLite schema
(`src/db/schema.ts`). -/
structure Store where
  groups : List TaskGroup
  tasks : List Task
  deps : List (String × String)
  owns : List TaskFileOwnership
  logs : List ProgressLogRow

/-- The empty store (a freshly initialized database). -/
def emptyStore : Store := ⟨[], [], [], [], []⟩

/-! ## Store queries (`TaskQueries` in `src/db/queries.ts`) -/

/-- `getTask`: lookup by primary key. -/
def getTask (st : Store) (id : String) : Option Task :=
  st.tasks.find? (fun t => t.id == id)

/-- `listTasks`: optional group and status-set filters. JavaScript
truthiness makes an empty-string group id and an empty status list
behave as absent filters. -/
def listTasksQ (st : Store) (group : Option String)
    (status : Option (List TaskStatus)) : List Task :=
  st.tasks.filter (fun t =>
    (match group with
     | none => true
     | some g => if g = "" then true else t.group_id == g) &&
    (match status with
     | none => true
     | some l => if l = [] then true else l.contains t.status))

/-- The sparse field set accepted by `updateTask`: `none` means the field
was not provided (`undefined`) and is left untouched. -/
structure TaskUpd where
  status : Option TaskStatus := none
  assigned_to : Option String := none
  branch_name : Option String := none
  worktree_path : Option String := none
  progress : Option Int := none
  progress_note : Option String := none
  started_at : Option String := none
  completed_at : Option String := none
  merged_at : Option String := none

/-- Apply a sparse update to one task row. Provided fields overwrite the
column (the service never writes SQL NULL through `updateTask`). -/
def applyUpd (u : TaskUpd) (t : Task) : Task :=
  { t with
    status := u.status.getD t.status
    assigned_to := u.assigned_to.or t.assigned_to
    branch_name := u.branch_name.or t.branch_name
    worktree_path := u.worktree_path.or t.worktree_path
    progress := u.progress.getD t.progress
    progress_note := u.progress_note.or t.progress_note
    started_at := u.started_at.or t.started_at
    completed_at := u.completed_at.or t.completed_at
    merged_at := u.merged_at.or t.merged_at }

/-- `updateTask`: `UPDATE tasks SET ... WHERE id = ?`. -/
def updateTaskQ (st : Store) (id : String) (u : TaskUpd) : Store :=
  { st with tasks := st.tasks.map (fun t => if t.id == id then applyUpd u t else t) }

/-- `getDependencies`: join of `task_dependencies` with `tasks` on
`depends_on`, restricted to one task. -/
def getDependencies (st : Store) (taskId : String) : List Task :=
  (st.deps.filter (fun e => e.1 == taskId)).filterMap (fun e => getTask st e.2)

/-- `addDependency`: `INSERT OR IGNORE` on the `(task_id, depends_on)`
primary key (duplicate edges collapse). -/
def addDependency (st : Store) (taskId dependsOn : String) : Store :=
  if st.deps.contains (taskId, dependsOn) then st
  else { st with deps := st.deps ++ [(taskId, dependsOn)] }

/-- `addFileOwnership`: `INSERT OR REPLACE` on the `(task_id, file_pattern)`
primary key. -/
def addFileOwnership (st : Store) (o : TaskFileOwnership) : Store :=
  { st with owns :=
      (st.owns.filter (fun w => !(w.task_id == o.task_id && w.file_pattern == o.file_pattern))) ++ [o] }

/-- `getFileOwnership`. -/
def getFileOwnership (st : Store) (taskId : String) : List TaskFileOwnership :=
  st.owns.filter (fun o => o.task_id == taskId)

/-- One row of `getFileOwnershipConflicts`. -/
structure FOConflict where
  task : Task
  pattern : String
  ownership_type : OwnershipType

/-- `getFileOwnershipConflicts`: the SQL join — my ownership rows, other
rows with an *identical* `file_pattern` string and a different task, and
the owning task currently `in_progress`. -/
def getFileOwnershipConflicts (st : Store) (taskId : String) : List FOConflict :=
  (st.owns.filter (fun m => m.task_id == taskId)).flatMap (fun m =>
    (st.owns.filter (fun o => o.file_pattern == m.file_pattern && o.task_id != taskId)).flatMap (fun o =>
      (st.tasks.filter (fun t => t.id == o.task_id && t.status == TaskStatus.in_progress)).map (fun t =>
        ⟨t, o.file_pattern, o.ownership_type⟩)))

/-- `addProgressLog` (structured level). -/
def addProgressLog (st : Store) (log : ProgressLogRow) : Store :=
  { st with logs := st.logs ++ [log] }

/-- `getProgressLogs` (structured level). -/
def getProgressLogs (st : Store) (taskId : String) : List ProgressLogRow :=
  st.logs.filter (fun l => l.task_id == taskId)

/-! ## DAG engine (`src/services/dag-service.ts`)

A JavaScript `Map<string, string[]>` is embedded as an association list
with `Map.set` replace-or-append semantics; the maps built by the service
always have distinct keys. -/

/-- The dependency map `Map<task_id, prerequisite ids>`. -/
abbrev DepMap := List (String × List String)

/-- `Map.get`. -/
def mget (m : DepMap) (k : String) : Option (List String) :=
  (m.find? (fun e => e.1 == k)).map (fun e => e.2)

/-- `Map.set`: replace the first binding or append a new one (JavaScript
insertion order). -/
def mset : DepMap → String → List String → DepMap
  | [], k, v => [(k, v)]
  | e :: rest, k, v => if e.1 == k then (k, v) :: rest else e :: mset rest k v

/-- Neighbors in the dependency graph: `dependencies.get(node) ?? []`. -/
def nbrs (deps : DepMap) (node : String) : List String :=
  (mget deps node).getD []

/-- `Set.add`. -/
def setAdd (s : List String) (x : String) : List String :=
  if s.contains x then s else s ++ [x]

/-- `canStart`: every prerequisite is in the completed set. -/
def canStart (taskId : String) (deps : DepMap) (completed : List String) : Bool :=
  (nbrs deps taskId).all (fun d => completed.contains d)

/-- `getUnlockedTasks`: candidates are map entries outside the augmented
completed set that directly list the completed task; unlocked when every
prerequisite is in the augmented set. -/
def getUnlockedTasks (completedTaskId : String) (allDeps : DepMap)
    (completed : List String) : List String :=
  let newCompleted := setAdd completed completedTaskId
  allDeps.filterMap (fun e =>
    if newCompleted.contains e.1 then none
    else if !(e.2.contains completedTaskId) then none
    else if e.2.all (fun d => newCompleted.contains d) then some e.1
    else none)

/-- Insertion-ordered key list of the color map built by
`validateNoCycles`: each entry's node, then its dependency targets,
first occurrence wins. -/
def addKey (ks : List String) (k : String) : List String :=
  if ks.contains k then ks else ks ++ [k]

/-- All nodes of the graph in color-map insertion order. -/
def initKeys (deps : DepMap) : List String :=
  deps.foldl (fun ks e => e.2.foldl addKey (addKey ks e.1)) []

/-- DFS state of `validateNoCycles`: the `color` map (`0` white, `1` gray,
`2` black; `none` = key absent) and the `parent` map (`some none` = parent
`null`; `none` = key absent, mirroring `Map.get` returning `undefined`). -/
structure DfsSt where
  color : String → Option Nat
  parent : String → Option (Option String)

/-- The cycle-reconstruction `while` loop of `validateNoCycles`, fueled.
`none` marks divergence of the source loop: fuel exhaustion, or stepping
to a node with no `parent` entry (where the source would loop on
`undefined` forever). Proved unreachable from the DFS invariants. -/
def buildCycleLoop (par : String → Option (Option String)) :
    Nat → String → String → List String → Option (List String)
  | 0, _, _, _ => none
  | fuel + 1, nb, current, acc =>
    match par current with
    | none => none
    | some none => some acc.reverse
    | some (some p) =>
      if p = nb then some acc.reverse
      else buildCycleLoop par fuel nb p (acc ++ [p])

/-- Process the neighbor list of `node` inside `dfs`; `rec` is the
recursive `dfs` call (at one unit less fuel), `bf` the fuel handed to the
cycle-reconstruction loop. -/
def dfsNbrs (bf : Nat)
    (rec : String → DfsSt → Option (DfsSt × Option (List String)))
    (node : String) :
    List String → DfsSt → Option (DfsSt × Option (List String))
  | [], st => some (st, none)
  | nb :: rest, st =>
    let ncol := (st.color nb).getD 0
    if ncol = 1 then
      match buildCycleLoop st.parent bf nb node [nb, node] with
      | none => none
      | some cyc => some (st, some cyc)
    else if ncol = 0 then
      let st1 : DfsSt := { st with parent := Function.update st.parent nb (some (some node)) }
      match rec nb st1 with
      | none => none
      | some (st2, some cyc) => some (st2, some cyc)
      | some (st2, none) => dfsNbrs bf rec node rest st2
    else dfsNbrs bf rec node rest st

/-- The `dfs` closure of `validateNoCycles`, fueled on recursion depth. -/
def dfsNode (deps : DepMap) (bf : Nat) :
    Nat → String → DfsSt → Option (DfsSt × Option (List String))
  | 0 => fun _ _ => none
  | fuel + 1 => fun node st =>
    let st1 : DfsSt := { st with color := Function.update st.color node (some 1) }
    match dfsNbrs bf (dfsNode deps bf fuel) node (nbrs deps node) st1 with
    | none => none
    | some (st2, some cyc) => some (st2, some cyc)
    | some (st2, none) =>
      some ({ st2 with color := Function.update st2.color node (some 2) }, none)

/-- The outer loop of `validateNoCycles` over the insertion-ordered keys
of the color map (the key set is fixed during the loop). -/
def validateLoop (deps : DepMap) (bf : Nat) :
    List String → DfsSt → Option (Bool × Option (List String))
  | [], _ => some (true, none)
  | k :: rest, st =>
    if st.color k = some 0 then
      let st1 : DfsSt := { st with parent := Function.update st.parent k (some none) }
      match dfsNode deps bf bf k st1 with
      | none => none
      | some (_, some cyc) => some (false, some cyc)
      | some (st2, none) => validateLoop deps bf rest st2
    else validateLoop deps bf rest st

/-- Initial DFS state: every node of the graph colored white. -/
def initDfsSt (deps : DepMap) : DfsSt :=
  ⟨fun k => if (initKeys deps).contains k then some 0 else none, fun _ => none⟩

/-- `validateNoCycles`, with `none` marking divergence of the source
(proved unreachable). The result is `(valid, cycle)`. -/
def validateNoCyclesO (deps : DepMap) : Option (Bool × Option (List String)) :=
  validateLoop deps ((initKeys deps).length + 1) (initKeys deps) (initDfsSt deps)

/-! ## Ownership engine (`src/services/conflict-service.ts`) -/

/-- Global replace of the regex `\*\*\/?` with the empty string:
left-to-right, non-overlapping matches. -/
def stripDoubleStar : List Char → List Char
  | [] => []
  | '*' :: '*' :: '/' :: rest => stripDoubleStar rest
  | '*' :: '*' :: rest => stripDoubleStar rest
  | c :: rest => c :: stripDoubleStar rest

/-- Global replace of `\*` with the empty string. -/
def removeStar (l : List Char) : List Char :=
  l.filter (fun c => c ≠ '*')

/-- Replace of the anchored `\/+$` with the empty string. -/
def dropTrailingSlash (l : List Char) : List Char :=
  (l.reverse.dropWhile (fun c => c = '/')).reverse

/-- The `normalize` helper of `patternsOverlap`. -/
def normalizePattern (p : String) : String :=
  String.mk (dropTrailingSlash (removeStar (stripDoubleStar p.data)))

/-- `patternsOverlap`: empty normalized base matches everything, otherwise
one normalized base must be a prefix of the other. -/
def patternsOverlap (p1 p2 : String) : Bool :=
  let b1 := normalizePattern p1
  let b2 := normalizePattern p2
  if b1.length = 0 || b2.length = 0 then true
  else b1.startsWith b2 || b2.startsWith b1

/-- One entry of `findConflicts`. -/
structure PatternConflict where
  task : Task
  conflicting_pattern : String
  ownership_type : OwnershipType

/-- `findConflicts` of the ownership engine: a pair conflicts iff the
patterns overlap and at least one side claims exclusive ownership. -/
def findConflicts (taskPatterns : List TaskFileOwnership)
    (otherTasks : List (Task × List TaskFileOwnership)) : List PatternConflict :=
  taskPatterns.flatMap (fun my =>
    otherTasks.flatMap (fun other =>
      other.2.filterMap (fun oo =>
        if (my.ownership_type == .exclusive || oo.ownership_type == .exclusive) &&
            patternsOverlap my.file_pattern oo.file_pattern then
          some ⟨other.1, oo.file_pattern, oo.ownership_type⟩
        else none)))

/-- Strip one trailing `**/` or `**` (regex `\*\*\/?$`), then one trailing
`*` (regex `\*$`), as in `fileMatchesPatterns`. -/
def stripTrailingGlob (p : String) : String :=
  let q := if p.endsWith "**/" then p.dropRight 3
           else if p.endsWith "**" then p.dropRight 2
           else p
  if q.endsWith "*" then q.dropRight 1 else q

/-- `fileMatchesPatterns`: prefix match against the stripped base, or
exact match against the original pattern; an empty base matches all. -/
def fileMatchesPatterns (filePath : String) (patterns : List String) : Bool :=
  patterns.any (fun pat =>
    let base := stripTrailingGlob pat
    base.length = 0 || filePath.startsWith base || filePath == pat)

/-- `checkFileConflicts`: one warning per changed file and other task
whose exclusive patterns the file matches. -/
def checkFileConflicts (changedFiles : List String)
    (otherTasks : List (Task × List TaskFileOwnership)) : List String :=
  changedFiles.flatMap (fun file =>
    otherTasks.filterMap (fun other =>
      let exclusivePatterns :=
        (other.2.filter (fun p => p.ownership_type == .exclusive)).map (fun p => p.file_pattern)
      if fileMatchesPatterns file exclusivePatterns then
        some ("File \"" ++ file ++ "\" conflicts with task #" ++
          toString other.1.sequence ++ " \"" ++ other.1.title ++
          "\" which has exclusive ownership")
      else none))

/-! ## Git driver environment (`src/services/git-service.ts`)

The driver shells out to an external `git` binary; its observable outcomes
are therefore inputs of the model. A field describes what the
corresponding driver call reports during the service operation under
consideration. -/

/-- Outcomes of the git driver calls made by one service operation. -/
structure GitEnv where
  /-- `createWorktree` raises with this message (the underlying
  `execSync` error text) iff `some`. -/
  createWorktreeErr : Option String
  /-- `getCurrentBranch` result. -/
  currentBranch : String
  /-- `mergeBranch`: the underlying `git merge` succeeded. -/
  mergeSucceeds : Bool
  /-- `getConflictedFiles` result inspected when the merge failed. -/
  conflictedFiles : List String
  /-- `worktreeExists` per path. -/
  worktreeExists : String → Bool
  /-- `removeWorktree` succeeds. -/
  removeWorktreeOk : Bool
  /-- `deleteBranch` succeeds. -/
  deleteBranchOk : Bool
  /-- `getLatestCommit "HEAD"`: the hash, or `none` when the call raises. -/
  latestCommitRes : Option String
  /-- `hasNewCommitsSince` per commit hash (internally never raises). -/
  hasNewCommits : String → Bool

/-- `isOnMainBranch`. -/
def GitEnv.isOnMain (g : GitEnv) : Bool :=
  g.currentBranch == "main" || g.currentBranch == "master"

/-- Merge strategy of `mergeTask`. -/
inductive MergeStrategy where
  | merge
  | squash
deriving DecidableEq, Repr

/-- `mergeBranch`: on a failed `git merge`, unmerged paths are returned as
conflicts; with no unmerged paths the failure is re-raised. -/
def gitMergeBranch (g : GitEnv) (branchName : String) :
    Except String (Bool × List String) :=
  if g.mergeSucceeds then .ok (true, [])
  else
    let conflicts := g.conflictedFiles
    if conflicts ≠ [] then .ok (false, conflicts)
    else .error ("Failed to merge branch " ++ branchName)

/-! ## Task service (`src/services/task-service.ts`)

Each operation takes the store, its input, and the values the runtime
supplies (generated UUIDs, wall-clock timestamps, git outcomes, the
slugifier) and returns the successor store together with its result.
A thrown exception is `Except.error`; since every operation performs its
guarded reads before its first write, the store returned alongside an
error is the state at the point of the throw. -/

/-- Render a status the way string interpolation of the TypeScript union
does. -/
def statusText : TaskStatus → String
  | .pending => "pending"
  | .assigned => "assigned"
  | .in_progress => "in_progress"
  | .in_review => "in_review"
  | .completed => "completed"
  | .failed => "failed"
  | .blocked => "blocked"

/-- Result of `claimTask`. -/
structure ClaimOut where
  success : Bool
  task : Option Task
  error : Option String
deriving Repr

/-- `claimTask`: guarded transition `pending → assigned`; every
precondition failure returns a structured `{success:false, error}` without
touching the store. `genAgent` is the generated `agent-XXXXXXXX` token
used when no agent id is supplied; `logId` the UUID of the log row. -/
def claimTask (st : Store) (taskId : String) (agentId : Option String)
    (genAgent logId : String) : Store × ClaimOut :=
  match getTask st taskId with
  | none => (st, ⟨false, none, some ("Task not found: " ++ taskId)⟩)
  | some task =>
    if task.status = .pending then
      let deps := getDependencies st task.id
      let unmetDeps := deps.filter (fun d => !(d.status == .completed))
      if unmetDeps.length > 0 then
        (st, ⟨false, some task, some ("Unmet dependencies: " ++
          String.intercalate ", " (unmetDeps.map (fun d =>
            "#" ++ toString d.sequence ++ " \"" ++ d.title ++ "\" (" ++
            statusText d.status ++ ")")))⟩)
      else
        let conflicts := getFileOwnershipConflicts st task.id
        if conflicts.length > 0 then
          (st, ⟨false, some task, some ("File ownership conflicts with in-progress tasks: " ++
            String.intercalate ", " (conflicts.map (fun c =>
              "#" ++ toString c.task.sequence ++ " \"" ++ c.task.title ++
              "\" on pattern \"" ++ c.pattern ++ "\"")))⟩)
        else
          let agent := agentId.getD genAgent
          let st1 := updateTaskQ st task.id { status := some .assigned, assigned_to := some agent }
          let st2 := addProgressLog st1
            ⟨logId, task.id, .claimed, "Task claimed by " ++ agent,
             some [("agent_id", Json.str agent)]⟩
          (st2, ⟨true, getTask st1 task.id, none⟩)
    else
      (st, ⟨false, some task, some ("Task is not pending (current status: " ++
        statusText task.status ++ ")")⟩)

/-- Result of `startTask`. -/
structure StartOut where
  worktree_path : String
  branch_name : String
  task : Option Task
  context_description : String
  context_file_patterns : List String
  context_deps_completed : List (String × String)

/-- `startTask`: guarded transition `assigned → in_progress`, creating the
worktree before any write. `slugify` models the slug library call
(`lower`, `strict`); `repoRoot` the resolved repository root. -/
def startTask (st : Store) (taskId : String) (git : GitEnv)
    (slugify : String → String) (repoRoot now logId : String) :
    Store × Except String StartOut :=
  match getTask st taskId with
  | none => (st, .error ("Task not found: " ++ taskId))
  | some task =>
    if task.status = .assigned then
      let slugT := (slugify task.title).take 30
      let branchName := "task/task-" ++ toString task.sequence ++ "-" ++ slugT
      let worktreePath := repoRoot ++ "/.worktrees/task-" ++ toString task.sequence ++ "-" ++ slugT
      match git.createWorktreeErr with
      | some e =>
        (st, .error ("Failed to create worktree at " ++ worktreePath ++
          " with branch " ++ branchName ++ ": " ++ e))
      | none =>
        let st1 := updateTaskQ st task.id
          { status := some .in_progress, branch_name := some branchName,
            worktree_path := some worktreePath, started_at := some now }
        let st2 := addProgressLog st1
          ⟨logId, task.id, .started, "Task started with branch " ++ branchName,
           some [("branch_name", Json.str branchName), ("worktree_path", Json.str worktreePath)]⟩
        let deps := getDependencies st2 task.id
        let fileOwnership := getFileOwnership st2 task.id
        (st2, .ok ⟨worktreePath, branchName, getTask st1 task.id, task.description,
          fileOwnership.map (fun fo => fo.file_pattern),
          (deps.filter (fun d => d.status == .completed)).map (fun d =>
            (d.title, d.branch_name.getD ""))⟩)
    else
      (st, .error ("Task must be 'assigned' to start (current status: " ++
        statusText task.status ++ ")"))

/-- Result of `updateProgress`. -/
structure UpdateOut where
  conflict_warnings : List String
  rebase_recommended : Bool
deriving Repr

/-- `updateProgress`: non-transitioning write of `progress` and
`progress_note`, best-effort conflict warnings and rebase recommendation,
and a `progress_update` log entry. -/
def updateProgress (st : Store) (taskId : String) (progress : Int)
    (note : String) (filesChanged : Option (List String)) (git : GitEnv)
    (logId : String) : Store × Except String UpdateOut :=
  match getTask st taskId with
  | none => (st, .error ("Task not found: " ++ taskId))
  | some task =>
    let st1 := updateTaskQ st task.id { progress := some progress, progress_note := some note }
    let conflictWarnings :=
      match filesChanged with
      | some fs =>
        if fs ≠ [] then
          let allTasks := listTasksQ st1 (some task.group_id) (some [.in_progress])
          let otherTasks := (allTasks.filter (fun t => !(t.id == task.id))).map
            (fun t => (t, getFileOwnership st1 t.id))
          checkFileConflicts fs otherTasks
        else []
      | none => []
    let rebaseRecommended :=
      match task.branch_name with
      | some b =>
        if b = "" then false
        else
          match git.latestCommitRes with
          | some mainCommit => git.hasNewCommits mainCommit
          | none => false
      | none => false
    let st2 := addProgressLog st1
      ⟨logId, task.id, .progress_update, note,
       some [("progress", Json.num progress),
             ("files_changed", Json.arr ((filesChanged.getD []).map Json.str)),
             ("conflict_warnings", Json.arr (conflictWarnings.map Json.str))]⟩
    (st2, .ok ⟨conflictWarnings, rebaseRecommended⟩)

/-- Result of `completeTask`. -/
structure CompleteOut where
  task : Option Task
  unlocked_tasks : List (Nat × String)

/-- `completeTask`: guarded transition `in_progress → in_review`; computes
the unlocked set over the full group with the completed-or-in-review set
plus this task, and transitions unlocked `blocked` tasks to `pending`. -/
def completeTask (st : Store) (taskId : String) (summary : String)
    (filesChanged : List String) (now logId : String) :
    Store × Except String CompleteOut :=
  match getTask st taskId with
  | none => (st, .error ("Task not found: " ++ taskId))
  | some task =>
    if task.status = .in_progress then
      let st1 := updateTaskQ st task.id
        { status := some .in_review, completed_at := some now,
          progress := some 100, progress_note := some summary }
      let allGroupTasks := listTasksQ st1 (some task.group_id) none
      let completedTasks :=
        (allGroupTasks.filter (fun t => t.status == .completed || t.status == .in_review)).map
          (fun t => t.id)
      let completedTasks2 := setAdd completedTasks task.id
      let dependencyMap := allGroupTasks.foldl
        (fun m t => mset m t.id ((getDependencies st1 t.id).map (fun d => d.id))) []
      let unlockedIds := getUnlockedTasks task.id dependencyMap completedTasks2
      let unlockedTasks := (unlockedIds.filterMap
        (fun i => allGroupTasks.find? (fun t => t.id == i))).map
        (fun t => (t.sequence, t.title))
      let st2 := unlockedIds.foldl (fun s i =>
        match allGroupTasks.find? (fun t => t.id == i) with
        | some t => if t.status = .blocked then updateTaskQ s i { status := some .pending } else s
        | none => s) st1
      let st3 := addProgressLog st2
        ⟨logId, task.id, .completed, summary,
         some [("files_changed", Json.arr (filesChanged.map Json.str)),
               ("unlocked_tasks", Json.arr (unlockedTasks.map (fun e =>
                 Json.obj [("sequence", Json.num (Int.ofNat e.1)), ("title", Json.str e.2)])))]⟩
      (st3, .ok ⟨getTask st1 task.id, unlockedTasks⟩)
    else
      (st, .error ("Task must be 'in_progress' to complete (current status: " ++
        statusText task.status ++ ")"))

/-- One conflict entry of `mergeTask`. -/
structure ConflictEntry where
  file : String
  description : String
  auto_resolvable : Bool
  suggestion : String

/-- Result of `mergeTask`. -/
structure MergeOut where
  success : Bool
  merge_result : String
  conflicts : List ConflictEntry
  unlocked_tasks : List (Nat × String × Bool)

/-- Render a strategy for log messages. -/
def strategyText : MergeStrategy → String
  | .merge => "merge"
  | .squash => "squash"

/-- `mergeTask`: guarded transition `in_review → completed` on a clean
merge (recomputing unlocked tasks over the completed set), or a structured
conflict report leaving the task `in_review`. -/
def mergeTask (st : Store) (taskId : String) (strategy : Option MergeStrategy)
    (git : GitEnv) (now logId : String) : Store × Except String MergeOut :=
  if git.isOnMain then
    match getTask st taskId with
    | none => (st, .error ("Task not found: " ++ taskId))
    | some task =>
      if task.status = .in_review then
        match task.branch_name with
        | none => (st, .error "Task has no branch to merge")
        | some branch =>
          if branch = "" then (st, .error "Task has no branch to merge")
          else
            let strat := strategy.getD .squash
            match gitMergeBranch git branch with
            | .error e => (st, .error e)
            | .ok (true, _) =>
              let st1 := updateTaskQ st task.id
                { status := some .completed, merged_at := some now }
              let allGroupTasks := listTasksQ st1 (some task.group_id) none
              let completedTasks :=
                (allGroupTasks.filter (fun t => t.status == .completed)).map (fun t => t.id)
              let dependencyMap := allGroupTasks.foldl
                (fun m t => mset m t.id ((getDependencies st1 t.id).map (fun d => d.id))) []
              let unlockedIds := getUnlockedTasks task.id dependencyMap completedTasks
              let unlockedTasks := (unlockedIds.filterMap
                (fun i => allGroupTasks.find? (fun t => t.id == i))).map
                (fun t => (t.sequence, t.title, canStart t.id dependencyMap completedTasks))
              let st2 := unlockedIds.foldl (fun s i =>
                match allGroupTasks.find? (fun t => t.id == i) with
                | some t => if t.status = .blocked then updateTaskQ s i { status := some .pending } else s
                | none => s) st1
              let st3 := addProgressLog st2
                ⟨logId, task.id, .merged, "Task merged via " ++ strategyText strat ++ " strategy",
                 some [("strategy", Json.str (strategyText strat)),
                       ("unlocked_tasks", Json.arr (unlockedTasks.map (fun e =>
                         Json.obj [("sequence", Json.num (Int.ofNat e.1)), ("title", Json.str e.2.1)])))]⟩
              (st3, .ok ⟨true, "clean", [], unlockedTasks⟩)
            | .ok (false, conflictFiles) =>
              let conflicts := conflictFiles.map (fun f =>
                ConflictEntry.mk f ("Merge conflict in " ++ f) false
                  ("Manually resolve conflicts in " ++ f ++ " and commit the result"))
              let st1 := addProgressLog st
                ⟨logId, task.id, .conflict_detected,
                 "Merge conflicts detected in " ++ toString conflictFiles.length ++ " file(s)",
                 some [("conflicted_files", Json.arr (conflictFiles.map Json.str)),
                       ("strategy", Json.str (strategyText strat))]⟩
              (st1, .ok ⟨false, "conflict", conflicts, []⟩)
      else
        (st, .error ("Task must be 'in_review' to merge (current status: " ++
          statusText task.status ++ ")"))
  else
    (st, .error ("Must be on main/master branch to merge. Current branch: " ++ git.currentBranch))

/-- Result of `cleanupTask`. -/
structure CleanupOut where
  worktree_removed : Bool
  branch_removed : Bool
deriving Repr

/-- `cleanupTask`: terminal transition from any state to `failed`, with
best-effort worktree and branch removal. -/
def cleanupTask (st : Store) (taskId : String) (reason : Option String)
    (git : GitEnv) (logId : String) : Store × Except String CleanupOut :=
  match getTask st taskId with
  | none => (st, .error ("Task not found: " ++ taskId))
  | some task =>
    let worktreeRemoved :=
      match task.worktree_path with
      | some w => if w = "" then false else git.worktreeExists w && git.removeWorktreeOk
      | none => false
    let branchRemoved :=
      match task.branch_name with
      | some b => if b = "" then false else git.deleteBranchOk
      | none => false
    let st1 := updateTaskQ st task.id { status := some .failed }
    let st2 := addProgressLog st1
      ⟨logId, task.id, .failed, reason.getD "Task cleaned up and marked as failed",
       some ((match reason with
              | some r => [("reason", Json.str r)]
              | none => []) ++
             [("worktree_removed", Json.bool worktreeRemoved),
              ("branch_removed", Json.bool branchRemoved)])⟩
    (st2, .ok ⟨worktreeRemoved, branchRemoved⟩)

/-! ## `createTasks` -/

/-- One `file_patterns` entry of the `create_tasks` input. -/
structure FilePatternInput where
  pattern : String
  ownership_type : OwnershipType

/-- One task of the `create_tasks` input. -/
structure TaskItemInput where
  title : String
  description : String
  priority : Option Priority := none
  depends_on : Option (List Nat) := none
  file_patterns : Option (List FilePatternInput) := none

/-- The `create_tasks` input. -/
structure CreateInput where
  group_title : String
  group_description : String
  tasks : List TaskItemInput

/-- `createGroup`: `INSERT` with primary-key enforcement. -/
def createGroup (st : Store) (g : TaskGroup) : Store × Option String :=
  if st.groups.any (fun x => x.id == g.id) then
    (st, some "UNIQUE constraint failed: task_groups.id")
  else ({ st with groups := st.groups ++ [g] }, none)

/-- `createTask`: `INSERT` with primary-key and foreign-key enforcement. -/
def createTaskQ (st : Store) (t : Task) : Store × Option String :=
  if st.tasks.any (fun x => x.id == t.id) then
    (st, some "UNIQUE constraint failed: tasks.id")
  else if !(st.groups.any (fun g => g.id == t.group_id)) then
    (st, some "FOREIGN KEY constraint failed")
  else ({ st with tasks := st.tasks ++ [t] }, none)

/-- The UUID the runtime generates for the task at position `i`
(the environment supplies one id per task). -/
def idAt (ids : List String) (i : Nat) : String :=
  ids.getD i ("task-uuid-" ++ toString i)

/-- Step 2 of `createTasks`: insert every task as `pending` with
sequence `position + 1`; an insertion failure aborts the loop. -/
def createTasksInsertLoop (groupId now : String) (ids : List String) :
    Nat → List TaskItemInput → Store → Store × Option String
  | _, [], st => (st, none)
  | i, item :: rest, st =>
    let task : Task :=
      { id := idAt ids i, group_id := groupId, sequence := i + 1,
        title := item.title, description := item.description,
        status := .pending, priority := item.priority.getD .medium,
        assigned_to := none, branch_name := none, worktree_path := none,
        progress := 0, progress_note := none, created_at := now,
        started_at := none, completed_at := none, merged_at := none }
    match createTaskQ st task with
    | (st1, some e) => (st1, some e)
    | (st1, none) => createTasksInsertLoop groupId now ids (i + 1) rest st1

/-- The `depends_on` materialization for one task: sequence references
outside `1..n` produce a warning and the edge is dropped. -/
def depsFold (taskId : String) (ids : List String) (n seqI : Nat) (title : String) :
    List Nat → Store → List String → List String → Store × List String × List String
  | [], st, deps, ws => (st, deps, ws)
  | s :: srest, st, deps, ws =>
    if 1 ≤ s ∧ s ≤ n then
      depsFold taskId ids n seqI title srest
        (addDependency st taskId (idAt ids (s - 1))) (deps ++ [idAt ids (s - 1)]) ws
    else
      depsFold taskId ids n seqI title srest st deps
        (ws ++ ["Task #" ++ toString seqI ++ " \"" ++ title ++
          "\" references invalid dependency sequence #" ++ toString s])

/-- Step 3 of `createTasks`: materialize dependencies and build the
in-memory dependency map (`Map.set` per task). -/
def createTasksDepsLoop (ids : List String) (n : Nat) :
    Nat → List TaskItemInput → Store → DepMap → List String →
    Store × DepMap × List String
  | _, [], st, m, ws => (st, m, ws)
  | i, item :: rest, st, m, ws =>
    let r := depsFold (idAt ids i) ids n (i + 1) item.title (item.depends_on.getD []) st [] ws
    createTasksDepsLoop ids n (i + 1) rest r.1 (mset m (idAt ids i) r.2.1) r.2.2

/-- Step 4 of `createTasks`: materialize file ownership. -/
def createTasksOwnsLoop (ids : List String) :
    Nat → List TaskItemInput → Store → Store
  | _, [], st => st
  | i, item :: rest, st =>
    let st1 := (item.file_patterns.getD []).foldl
      (fun s fp => addFileOwnership s ⟨idAt ids i, fp.pattern, fp.ownership_type⟩) st
    createTasksOwnsLoop ids (i + 1) rest st1

/-- Step 6 of `createTasks`: overlap warnings of one task against all
later tasks. -/
def overlapAgainst (itemI : TaskItemInput) (seqI : Nat) :
    Nat → List TaskItemInput → List String
  | _, [] => []
  | j, itemJ :: rest =>
    (match itemJ.file_patterns with
     | none => []
     | some fpsJ =>
       (itemI.file_patterns.getD []).flatMap (fun fpI =>
         fpsJ.filterMap (fun fpJ =>
           if (fpI.ownership_type == .exclusive || fpJ.ownership_type == .exclusive) &&
               patternsOverlap fpI.pattern fpJ.pattern then
             some ("File pattern overlap: task #" ++ toString seqI ++ " \"" ++
               itemI.title ++ "\" (" ++ fpI.pattern ++ ") and task #" ++
               toString j ++ " \"" ++ itemJ.title ++ "\" (" ++ fpJ.pattern ++ ")")
           else none)))
    ++ overlapAgainst itemI seqI (j + 1) rest

/-- Step 6 of `createTasks`: pairwise overlap warnings (`i < j`, at least
one exclusive side). -/
def overlapWarnings : Nat → List TaskItemInput → List String
  | _, [] => []
  | i, item :: rest =>
    (match item.file_patterns with
     | none => []
     | some _ => overlapAgainst item i (i + 1) rest)
    ++ overlapWarnings (i + 1) rest

/-- One task summary of the `create_tasks` output. -/
structure CreateTaskSummary where
  id : String
  sequence : Nat
  title : String
  status : TaskStatus
  can_start : Bool

/-- Steps 7 and 8 of `createTasks`: transition tasks with dependencies to
`blocked` and compute the output summaries (`can_start` against the empty
completed set). -/
def createTasksFinalizeLoop (ids : List String) (m : DepMap) :
    Nat → List TaskItemInput → Store → Store × List CreateTaskSummary
  | _, [], st => (st, [])
  | i, item :: rest, st =>
    let taskId := idAt ids i
    let deps := (mget m taskId).getD []
    let hasDeps := deps.length > 0
    let st1 := if hasDeps then updateTaskQ st taskId { status := some .blocked } else st
    let r := createTasksFinalizeLoop ids m (i + 1) rest st1
    (r.1, ⟨taskId, i + 1, item.title,
      if hasDeps then .blocked else .pending,
      canStart taskId m []⟩ :: r.2)

/-- The `create_tasks` output. -/
structure CreateOut where
  group_id : String
  tasks : List CreateTaskSummary
  warnings : List String

/-- `createTasks`: atomic-per-statement construction of a group; a cycle
or a pattern overlap is a warning, the group is still created. `groupId`
and `ids` are the UUIDs generated by the runtime, `now` the wall clock. -/
def createTasks (st : Store) (inp : CreateInput) (groupId : String)
    (ids : List String) (now : String) : Store × Except String CreateOut :=
  match createGroup st ⟨groupId, inp.group_title, inp.group_description, "active", now⟩ with
  | (st0, some e) => (st0, .error e)
  | (st0, none) =>
    match createTasksInsertLoop groupId now ids 0 inp.tasks st0 with
    | (st1, some e) => (st1, .error e)
    | (st1, none) =>
      let n := inp.tasks.length
      let r := createTasksDepsLoop ids n 0 inp.tasks st1 [] []
      let st2 := r.1
      let dependencyMap := r.2.1
      let warningsDeps := r.2.2
      let st3 := createTasksOwnsLoop ids 0 inp.tasks st2
      let warningsCycle :=
        match validateNoCyclesO dependencyMap with
        | some (false, cyc) =>
          ["Dependency cycle detected: " ++ String.intercalate " -> " (cyc.getD [])]
        | _ => []
      let warningsOverlap := overlapWarnings 1 inp.tasks
      let fin := createTasksFinalizeLoop ids dependencyMap 0 inp.tasks st3
      (fin.1, .ok ⟨groupId, fin.2, warningsDeps ++ warningsCycle ++ warningsOverlap⟩)

/-! ## `listTasks` and `getTask` service reads -/

/-- One entry of the `list_tasks` output. -/
structure ListTaskEntry where
  id : String
  sequence : Nat
  title : String
  status : TaskStatus
  progress : Int
  progress_note : Option String
  assigned_to : Option String
  branch_name : Option String
  worktree_path : Option String
  dependencies : List (Nat × String × TaskStatus)
  can_start : Bool

/-- The `list_tasks` summary counts. -/
structure ListSummary where
  total : Nat
  pending : Nat
  in_progress : Nat
  in_review : Nat
  completed : Nat
  blocked : Nat
deriving DecidableEq, Repr

/-- The `list_tasks` output. -/
structure ListOut where
  tasks : List ListTaskEntry
  summary : ListSummary

/-- `listTasks`: the dependency map and completed set for `can_start` are
built only from the tasks matched by the query's own filter; `can_start`
is reported only for `pending` tasks. -/
def listTasks (st : Store) (group : Option String)
    (status : Option (List TaskStatus)) : ListOut :=
  let tasks := listTasksQ st group status
  let dependencyMap := tasks.foldl
    (fun m t => mset m t.id ((getDependencies st t.id).map (fun d => d.id))) []
  let completedTasks := (tasks.filter (fun t => t.status == .completed)).map (fun t => t.id)
  let outputTasks := tasks.map (fun t =>
    let deps := getDependencies st t.id
    ListTaskEntry.mk t.id t.sequence t.title t.status t.progress t.progress_note
      t.assigned_to t.branch_name t.worktree_path
      (deps.map (fun d => (d.sequence, d.title, d.status)))
      (t.status == .pending && canStart t.id dependencyMap completedTasks))
  { tasks := outputTasks
    summary :=
      { total := tasks.length
        pending := (tasks.filter (fun t => t.status == .pending)).length
        in_progress := (tasks.filter (fun t => t.status == .in_progress)).length
        in_review := (tasks.filter (fun t => t.status == .in_review)).length
        completed := (tasks.filter (fun t => t.status == .completed)).length
        blocked := (tasks.filter (fun t => t.status == .blocked)).length } }

/-- The `get_task` output. -/
structure GetOut where
  task : Task
  dependencies : List (Nat × String × TaskStatus)
  file_ownership : List TaskFileOwnership
  progress_logs : List ProgressLogRow

/-- `getTask` service read. -/
def getTaskSvc (st : Store) (taskId : String) : Except String GetOut :=
  match getTask st taskId with
  | none => .error ("Task not found: " ++ taskId)
  | some task =>
    .ok ⟨task,
      (getDependencies st task.id).map (fun d => (d.sequence, d.title, d.status)),
      getFileOwnership st task.id,
      getProgressLogs st task.id⟩

/-! ## Operation histories -/

/-- One invocation of a service operation, together with every value the
runtime supplies during it (generated ids, timestamps, git outcomes, the
slug library). -/
inductive Op where
  | create (inp : CreateInput) (groupId : String) (ids : List String) (now : String)
  | listT (group : Option String) (status : Option (List TaskStatus))
  | getT (id : String)
  | claim (id : String) (agentId : Option String) (genAgent logId : String)
  | start (id : String) (git : GitEnv) (slugify : String → String) (repoRoot now logId : String)
  | update (id : String) (progress : Int) (note : String)
      (files : Option (List String)) (git : GitEnv) (logId : String)
  | complete (id : String) (summary : String) (files : List String) (now logId : String)
  | merge (id : String) (strategy : Option MergeStrategy) (git : GitEnv) (now logId : String)
  | cleanup (id : String) (reason : Option String) (git : GitEnv) (logId : String)

/-- The store successor of one operation (reads leave it unchanged; a
thrown exception leaves the writes performed before the throw). -/
def applyOp (st : Store) : Op → Store
  | .create inp gid ids now => (createTasks st inp gid ids now).1
  | .listT _ _ => st
  | .getT _ => st
  | .claim id a g l => (claimTask st id a g l).1
  | .start id git slug root now l => (startTask st id git slug root now l).1
  | .update id p note files git l => (updateProgress st id p note files git l).1
  | .complete id s f now l => (completeTask st id s f now l).1
  | .merge id strat git now l => (mergeTask st id strat git now l).1
  | .cleanup id r git l => (cleanupTask st id r git l).1

/-- A store reachable from a fresh database by a sequence of service
operations. -/
def Reachable (st : Store) : Prop :=
  ∃ ops : List Op, st = ops.foldl applyOp emptyStore

/-! ## TEXT-level progress-log marshalling

The store persists `metadata` in a TEXT column: `addProgressLog` writes
`metadata ? JSON.stringify(metadata) : null`, `getProgressLogs` reads
`metadata ? JSON.parse(metadata) : null`. The runtime's serialization
pair is abstracted as `(stringify, parse)` over a target `S`, together
with JavaScript truthiness `falsy` on `S`; the contract the runtime
guarantees for JSON-representable records — `parse` inverts `stringify`
and a serialized object is truthy — is a hypothesis of the round-trip
theorem. -/

/-- A `progress_logs` row as stored, `metadata` in serialized form. -/
structure LogRowT (S : Type) where
  id : String
  task_id : String
  event : ProgressEvent
  message : String
  metadata : Option S

/-- Column-level `addProgressLog`: a present metadata record is a
JavaScript object, hence truthy, and is serialized; absent metadata is
stored as SQL NULL. -/
def addProgressLogT (S : Type) (stringify : Metadata → S)
    (rows : List (LogRowT S)) (id taskId : String) (event : ProgressEvent)
    (message : String) (metadata : Option Metadata) : List (LogRowT S) :=
  rows ++ [⟨id, taskId, event, message, metadata.map stringify⟩]

/-- Column-level `getProgressLogs`: a NULL or falsy column yields `null`
metadata, otherwise the column is parsed back to structured form. -/
def getProgressLogsT (S : Type) (parse : S → Metadata) (falsy : S → Bool)
    (rows : List (LogRowT S)) (taskId : String) : List ProgressLogRow :=
  (rows.filter (fun r => r.task_id == taskId)).map (fun r =>
    ⟨r.id, r.task_id, r.event, r.message,
     match r.metadata with
     | none => none
     | some s => if falsy s then none else some (parse s)⟩)

/-! ## Concrete instances used by the claim theorems and witnesses -/

/-- The diamond graph A→B, A→C, B→D, C→D (D depends on B and C). -/
def diamondDeps : DepMap :=
  [("A", []), ("B", ["A"]), ("C", ["A"]), ("D", ["B", "C"])]

/-- C10 concrete scenario: a completed prerequisite `d` and a pending
dependent `p` in one group. -/
def c10TaskD : Task :=
  ⟨"d", "g", 1, "D", "", .completed, .medium, some "a", none, none, 100, none,
   "t0", none, none, none⟩

/-- The pending dependent of the C10 scenario. -/
def c10TaskP : Task :=
  ⟨"p", "g", 2, "P", "", .pending, .medium, none, none, none, 0, none,
   "t0", none, none, none⟩

/-- The C10 scenario store. -/
def c10State : Store :=
  ⟨[⟨"g", "G", "", "active", "t0"⟩], [c10TaskD, c10TaskP], [("p", "d")], [], []⟩

/-- C7 witness task. -/
def c7Task : Task :=
  ⟨"t", "g", 1, "T", "", .assigned, .medium, some "a", none, none, 0, none,
   "t0", none, none, none⟩

/-- C7 witness store. -/
def c7State : Store :=
  ⟨[⟨"g", "G", "", "active", "t0"⟩], [c7Task], [], [], []⟩

/-- C7 witness git environment: worktree creation fails. -/
def c7Git : GitEnv :=
  ⟨some "boom", "main", true, [], fun _ => false, true, true, none, fun _ => false⟩

/-- C1 witness task: pending, no prerequisites, no conflicting pattern. -/
def c1Task : Task :=
  ⟨"t", "g", 1, "T", "", .pending, .medium, none, none, none, 0, none,
   "t0", none, none, none⟩

/-- C1 witness store. -/
def c1State : Store :=
  ⟨[⟨"g", "G", "", "active", "t0"⟩], [c1Task], [], [], []⟩

/-- C9 witness tasks: a pending claimer and an in-progress holder of the
identical pattern. -/
def c9TaskP : Task :=
  ⟨"p", "g", 1, "P", "", .pending, .medium, none, none, none, 0, none,
   "t0", none, none, none⟩

/-- The in-progress holder of the shared pattern. -/
def c9TaskQ : Task :=
  ⟨"q", "g", 2, "Q", "", .in_progress, .medium, some "w", none, none, 10, none,
   "t0", none, none, none⟩

/-- C9 witness store: both tasks declare `src/db/**` as `shared`. -/
def c9State : Store :=
  ⟨[⟨"g", "G", "", "active", "t0"⟩], [c9TaskP, c9TaskQ], [],
   [⟨"p", "src/db/**", .shared⟩, ⟨"q", "src/db/**", .shared⟩], []⟩

/-- The status column of every task row, in row order. -/
def taskStatuses (st : Store) : List TaskStatus :=
  st.tasks.map (fun t => t.status)

/-- C3 counterexample task: already `completed`. -/
def c3Task : Task :=
  ⟨"t", "g", 1, "T", "", .completed, .medium, some "w", none, none, 100, none,
   "t0", none, some "t1", some "t2"⟩

/-- C3 counterexample store. -/
def c3State : Store :=
  ⟨[⟨"g", "G", "", "active", "t0"⟩], [c3Task], [], [], []⟩

/-- A git environment in which every driver call succeeds. -/
def gitAllOk : GitEnv :=
  ⟨none, "main", true, [], fun _ => true, true, true, some "c0", fun _ => false⟩

/-- The progress invariant of the spec: every `in_review` or `completed`
task has progress 100. -/
def ProgressInvariant (st : Store) : Prop :=
  ∀ t ∈ st.tasks, (t.status = .in_review ∨ t.status = .completed) → t.progress = 100

/-- Task ids are pairwise distinct (the `tasks.id` primary key). -/
def NodupIds (st : Store) : Prop :=
  (st.tasks.map (fun t => t.id)).Nodup

/-- The combined store invariant carried through operation histories. -/
def GoodStore (st : Store) : Prop :=
  NodupIds st ∧ ProgressInvariant st

/-- The restriction the amended C2 places on a history: `update_progress`
may not write a progress other than 100 to a task that is already
`in_review` or `completed`. Every other operation is unrestricted. -/
def OkOp (st : Store) : Op → Prop
  | .update id p _ _ _ _ =>
    ∀ t, getTask st id = some t →
      (t.status = .in_review ∨ t.status = .completed) → p = 100
  | _ => True

/-- Stores reachable by histories observing `OkOp`. -/
inductive SafeReach : Store → Prop
  | base : SafeReach emptyStore
  | step (st : Store) (op : Op) : SafeReach st → OkOp st op →
      SafeReach (applyOp st op)

/-- C2 counterexample input: one independent task. -/
def c2Input : CreateInput :=
  ⟨"Blog", "blog", [⟨"DB Schema", "schema", none, none, none⟩]⟩

/-- C2 counterexample history: create, claim, start, complete — and then
`update_progress` with progress 50 on the now `in_review` task. -/
def c2Ops : List Op :=
  [.create c2Input "g1" ["t1"] "n0",
   .claim "t1" (some "w") "gen" "L1",
   .start "t1" gitAllOk (fun _ => "db-schema") "/repo" "n1" "L2",
   .complete "t1" "done" [] "n2" "L3",
   .update "t1" 50 "oops" none gitAllOk "L4"]

/-- The store the C2 counterexample history produces. -/
def c2BadState : Store := c2Ops.foldl applyOp emptyStore

/-- The blocked-check of the unlock loop against the group snapshot:
the snapshot task found for `i` is currently `blocked`. -/
def unlockCond (snap : List Task) (i : String) : Bool :=
  match snap.find? (fun x => x.id == i) with
  | some x => x.status == .blocked
  | none => false

/-- The sparse update `complete_task` applies to the completed task. -/
def inReviewUpd (now summary : String) : TaskUpd :=
  { status := some .in_review, completed_at := some now,
    progress := some 100, progress_note := some summary }

/-- The full group of a task as `complete_task` reads it. -/
def groupTasksOf (st : Store) (t : Task) : List Task :=
  listTasksQ st (some t.group_id) none

/-- The dependency map `complete_task` builds over a group snapshot. -/
def groupDepMap (st : Store) (l : List Task) : DepMap :=
  l.foldl (fun m u => mset m u.id ((getDependencies st u.id).map (fun d => d.id))) []

/-- The ids of the snapshot tasks in status `completed` or `in_review`. -/
def completedOrReviewIds (l : List Task) : List String :=
  (l.filter (fun u => u.status == .completed || u.status == .in_review)).map
    (fun u => u.id)

/-- The unlocked set of C4, stated over the pre-completion store: the DAG
engine applied to the full group's dependency map with the completed set
taken to be every group task in `completed` or `in_review` plus the
just-completed task. -/
def unlockedSpec (st : Store) (t : Task) : List String :=
  getUnlockedTasks t.id (groupDepMap st (groupTasksOf st t))
    (setAdd (completedOrReviewIds (groupTasksOf st t)) t.id)

/-- C4 witness scenario: group `g` holds an `in_progress` task `A` and a
`blocked` task `B` whose only prerequisite is `A`. -/
def c4TaskA : Task :=
  ⟨"A", "g", 1, "A", "", .in_progress, .medium, some "a", none, none, 50, none,
   "t0", none, none, none⟩

/-- The blocked dependent of the C4 scenario. -/
def c4TaskB : Task :=
  ⟨"B", "g", 2, "B", "", .blocked, .medium, none, none, none, 0, none,
   "t0", none, none, none⟩

/-- The C4 scenario store. -/
def c4State : Store :=
  ⟨[⟨"g", "G", "", "active", "t0"⟩], [c4TaskA, c4TaskB], [("B", "A")], [], []⟩

/-! ## C5 verification layer -/

/-- The dependency edge relation of the graph handed to
`validateNoCycles`: `a` points at each entry of its neighbor list. -/
def Edge (deps : DepMap) (a b : String) : Prop :=
  b ∈ nbrs deps a

/-- A dependency map is acyclic when no node reaches itself through a
nonempty edge path. -/
def Acyclic (deps : DepMap) : Prop :=
  ∀ n, ¬ Relation.TransGen (Edge deps) n n

/-- The `parent` links of the gray stack, listed deepest-first: the
deepest node points at the next one, and the root's parent is `null`. -/
def ParentLinksR (par : String → Option (Option String)) : List String → Prop
  | [] => True
  | [x] => par x = some none
  | x :: y :: rest => par x = some (some y) ∧ ParentLinksR par (y :: rest)

/-- Number of white nodes of the color map. -/
def whitesCount (deps : DepMap) (st : DfsSt) : Nat :=
  ((initKeys deps).filter (fun n => st.color n == some 0)).length

/-- The DFS invariant: `S` is the gray stack, deepest node first. -/
structure DfsInv (deps : DepMap) (S : List String) (st : DfsSt) : Prop where
  keyed : ∀ n, (st.color n).isSome = true ↔ n ∈ initKeys deps
  grayIff : ∀ n, st.color n = some 1 ↔ n ∈ S
  nodupS : S.Nodup
  chainS : List.Chain' (fun a b => Edge deps b a) S
  links : ParentLinksR st.parent S
  colorRange : ∀ n c, st.color n = some c → c = 0 ∨ c = 1 ∨ c = 2
  blackCert : ∃ rank : String → Nat, ∀ n, st.color n = some 2 →
    ∀ b, Edge deps n b → st.color b = some 2 ∧ rank b < rank n

/-- Full specification of a `dfs` call at a given fuel: on a white node
whose parent link extends the gray stack, the call returns, and either
finds no cycle — restoring the stack, blackening the node, only
blackening further nodes — or reports a nonempty cycle, in which case
the graph indeed has one. -/
def NodeSpec (deps : DepMap) (bf fuel : Nat) : Prop :=
  ∀ (node : String) (st : DfsSt) (S : List String),
    DfsInv deps S st →
    st.color node = some 0 →
    ((S = [] ∧ st.parent node = some none) ∨
      (∃ h S2, S = h :: S2 ∧ st.parent node = some (some h) ∧ Edge deps h node)) →
    whitesCount deps st < fuel →
    ∃ res, dfsNode deps bf fuel node st = some res ∧
      ((∃ st2, res = (st2, none) ∧ DfsInv deps S st2 ∧ st2.color node = some 2 ∧
        (∀ m, st.color m = some 2 → st2.color m = some 2) ∧
        (∀ m, st2.color m = some 0 → st.color m = some 0)) ∨
       (∃ st2 cyc, res = (st2, some cyc) ∧ cyc ≠ [] ∧ ¬ Acyclic deps))

/-! ## Basic lemmas -/

theorem contains_iff_mem (l : List String) (a : String) :
    l.contains a = true ↔ a ∈ l :=
  List.elem_iff

theorem setAdd_mem (s : List String) (c x : String) :
    x ∈ setAdd s c ↔ x ∈ s ∨ x = c := by
  unfold setAdd
  by_cases h : s.contains c = true
  · rw [if_pos h]
    exact ⟨Or.inl, fun hx => hx.elim id (fun e => e ▸ (contains_iff_mem s c).mp h)⟩
  · rw [if_neg h]
    simp only [List.mem_append, List.mem_singleton]

theorem mem_of_mget {m : DepMap} {k : String} {v : List String}
    (h : mget m k = some v) : (k, v) ∈ m := by
  unfold mget at h
  obtain ⟨e, he, hev⟩ := Option.map_eq_some'.mp h
  have hk := List.find?_some he
  have hm := List.mem_of_find?_eq_some he
  cases e with
  | mk k' v' =>
    simp only at hev
    simp only [beq_iff_eq] at hk
    rw [← hev, ← hk]
    exact hm

theorem mget_eq_of_mem_nodup {m : DepMap} (hm : (m.map Prod.fst).Nodup)
    {k : String} {v : List String} (h : (k, v) ∈ m) : mget m k = some v := by
  induction m with
  | nil => cases h
  | cons e rest ih =>
    simp only [List.map_cons, List.nodup_cons] at hm
    rcases List.mem_cons.mp h with heq | hmem
    · subst heq
      unfold mget
      simp [List.find?_cons_of_pos, beq_iff_eq]
    · have hne : e.1 ≠ k := by
        intro hcontr
        exact hm.1 (hcontr ▸ (List.mem_map.mpr ⟨(k, v), hmem, rfl⟩))
      unfold mget
      rw [List.find?_cons_of_neg]
      · exact ih hm.2 hmem
      · simp [beq_iff_eq, hne]

/-! ## C6: `getUnlockedTasks` characterization -/

/-- C6: `unlocked_by` returns exactly the direct dependents of the
completed task that are outside the augmented completed set and whose
prerequisites all lie in the augmented set; in the diamond, D is not
unlocked by B's completion while C is incomplete. -/
theorem c6_getUnlockedTasks_iff :
    (∀ (m : DepMap), (m.map Prod.fst).Nodup →
      ∀ (c tid : String) (comp : List String),
        (tid ∈ getUnlockedTasks c m comp ↔
          (c ∈ nbrs m tid ∧ ¬ (tid ∈ comp ∨ tid = c) ∧
            ∀ d ∈ nbrs m tid, d ∈ comp ∨ d = c))) ∧
    "D" ∉ getUnlockedTasks "B" diamondDeps ["A"] := by
  constructor
  · intro m hm c tid comp
    unfold getUnlockedTasks
    simp only [List.mem_filterMap]
    constructor
    · rintro ⟨e, hem, hfe⟩
      by_cases h1 : (setAdd comp c).contains e.1 = true
      · rw [if_pos h1] at hfe; cases hfe
      · rw [if_neg h1] at hfe
        by_cases h2 : e.2.contains c = true
        · rw [if_neg (by rw [h2]; simp)] at hfe
          by_cases h3 : e.2.all (fun d => (setAdd comp c).contains d) = true
          · rw [if_pos h3, Option.some_inj] at hfe
            have hget : mget m tid = some e.2 := hfe ▸ mget_eq_of_mem_nodup hm hem
            have hn : nbrs m tid = e.2 := by unfold nbrs; rw [hget]; rfl
            refine ⟨?_, ?_, ?_⟩
            · rw [hn]; exact (contains_iff_mem _ _).mp h2
            · intro hc
              apply h1
              rw [hfe]
              exact (contains_iff_mem _ _).mpr ((setAdd_mem comp c tid).mpr hc)
            · intro d hd
              rw [hn] at hd
              have := (List.all_eq_true.mp h3) d hd
              exact (setAdd_mem comp c d).mp ((contains_iff_mem _ _).mp this)
          · rw [if_neg h3] at hfe; cases hfe
        · rw [if_pos (by rw [Bool.not_eq_true] at h2; rw [h2]; rfl)] at hfe
          cases hfe
    · rintro ⟨hc, hout, hall⟩
      have hl : ∃ l, mget m tid = some l := by
        cases hgd : mget m tid with
        | none => unfold nbrs at hc; rw [hgd] at hc; cases hc
        | some l => exact ⟨l, rfl⟩
      obtain ⟨l, hget⟩ := hl
      have hn : nbrs m tid = l := by unfold nbrs; rw [hget]; rfl
      refine ⟨(tid, l), mem_of_mget hget, ?_⟩
      have h1 : ¬ ((setAdd comp c).contains tid = true) := by
        intro hcontr
        exact hout ((setAdd_mem comp c tid).mp ((contains_iff_mem _ _).mp hcontr))
      have h2 : l.contains c = true := (contains_iff_mem _ _).mpr (hn ▸ hc)
      have h3 : l.all (fun d => (setAdd comp c).contains d) = true := by
        rw [List.all_eq_true]
        intro d hd
        exact (contains_iff_mem _ _).mpr ((setAdd_mem comp c d).mpr (hall d (hn ▸ hd)))
      rw [if_neg h1, if_neg (by rw [h2]; simp), if_pos h3]
  · decide

/-- C6 witness: the characterization applied to the diamond at B's
completion with A completed. -/
theorem c6_witness :
    "D" ∈ getUnlockedTasks "C" diamondDeps ["A", "B"] ∧
    "D" ∉ getUnlockedTasks "B" diamondDeps ["A"] := by
  have h := c6_getUnlockedTasks_iff
  refine ⟨?_, h.2⟩
  refine (h.1 diamondDeps (by decide) "C" "D" ["A", "B"]).mpr ?_
  refine ⟨by decide, by decide, ?_⟩
  decide

/-! ## C8: progress-log metadata round-trip -/

/-- C8: for every serialization pair satisfying the runtime contract and
every structured metadata value (including absent), `append_progress`
followed by `list_progress` yields a log entry whose metadata equals the
original structured value. -/
theorem c8_metadata_roundtrip (S : Type) (stringify : Metadata → S)
    (parse : S → Metadata) (falsy : S → Bool)
    (hrt : ∀ md, parse (stringify md) = md)
    (hth : ∀ md, falsy (stringify md) = false)
    (rows : List (LogRowT S)) (id taskId : String) (event : ProgressEvent)
    (message : String) (metadata : Option Metadata) :
    ∃ e ∈ getProgressLogsT S parse falsy
        (addProgressLogT S stringify rows id taskId event message metadata) taskId,
      e.id = id ∧ e.metadata = metadata := by
  unfold addProgressLogT getProgressLogsT
  refine ⟨⟨id, taskId, event, message,
    match metadata.map stringify with
    | none => none
    | some s => if falsy s then none else some (parse s)⟩, ?_, rfl, ?_⟩
  · rw [List.mem_map]
    refine ⟨⟨id, taskId, event, message, metadata.map stringify⟩, ?_, rfl⟩
    rw [List.mem_filter]
    exact ⟨List.mem_append_right _ (List.mem_singleton.mpr rfl), by simp⟩
  · cases metadata with
    | none => rfl
    | some md => simp [Option.map_some', hth md, hrt md]

/-- C8 witness: the round trip at a concrete row with the identity
serialization pair. -/
theorem c8_witness :
    ∃ e ∈ getProgressLogsT Metadata id (fun _ => false)
        (addProgressLogT Metadata id [] "log-1" "task-1" ProgressEvent.claimed
          "claimed" (some [("agent_id", Json.str "agent-a")])) "task-1",
      e.id = "log-1" ∧ e.metadata = some [("agent_id", Json.str "agent-a")] :=
  c8_metadata_roundtrip Metadata id id (fun _ => false)
    (fun _ => rfl) (fun _ => rfl) [] "log-1" "task-1" ProgressEvent.claimed
    "claimed" (some [("agent_id", Json.str "agent-a")])

/-! ## Further store lemmas -/

theorem getTask_id {st : Store} {id : String} {t : Task}
    (h : getTask st id = some t) : t.id = id := by
  unfold getTask at h
  have := List.find?_some h
  rwa [beq_iff_eq] at this

theorem getTask_mem {st : Store} {id : String} {t : Task}
    (h : getTask st id = some t) : t ∈ st.tasks :=
  List.mem_of_find?_eq_some h

theorem getTask_updateTaskQ (st : Store) (id : String) (u : TaskUpd) :
    getTask (updateTaskQ st id u) id = (getTask st id).map (applyUpd u) := by
  unfold getTask updateTaskQ
  simp only
  induction st.tasks with
  | nil => rfl
  | cons t rest ih =>
    simp only [List.map_cons, List.find?]
    by_cases h : (t.id == id) = true
    · have h2 : ((applyUpd u t).id == id) = true := h
      rw [if_pos h]
      simp only [List.find?, h, h2]
      rfl
    · have h2 : (t.id == id) = false := by rwa [Bool.not_eq_true] at h
      rw [if_neg h]
      simp only [List.find?, h2]
      exact ih

theorem getTask_addProgressLog (st : Store) (l : ProgressLogRow) (id : String) :
    getTask (addProgressLog st l) id = getTask st id := rfl

/-! ## C10: `list_tasks` computes `can_start` from its own filter -/

/-- C10: `list_tasks` builds the completed set only from the tasks its own
filter returns — under a `pending` filter the pending task `p` whose sole
prerequisite is completed reports `can_start = false`, without the filter
it reports `true`; and `can_start` is `false` for every non-pending
entry. -/
theorem c10_listTasks_filtered_canStart :
    (∀ (st : Store) (g : Option String) (s : Option (List TaskStatus)),
      ∀ e ∈ (listTasks st g s).tasks, e.status ≠ .pending → e.can_start = false) ∧
    (getDependencies c10State "p").all (fun d => d.status == .completed) = true ∧
    (listTasks c10State none (some [.pending])).tasks.map
      (fun e => (e.id, e.status, e.can_start)) = [("p", TaskStatus.pending, false)] ∧
    (listTasks c10State none none).tasks.map
      (fun e => (e.id, e.status, e.can_start)) =
        [("d", TaskStatus.completed, false), ("p", TaskStatus.pending, true)] := by
  refine ⟨?_, by decide, by decide, by decide⟩
  intro st g s e he hne
  unfold listTasks at he
  simp only [List.mem_map] at he
  obtain ⟨t, _, rfl⟩ := he
  show (t.status == TaskStatus.pending && _) = false
  have hb : (t.status == TaskStatus.pending) = false := beq_eq_false_iff_ne.mpr hne
  rw [hb, Bool.false_and]

/-- C10 witness: the universal conjunct applied to the completed entry of
the concrete scenario. -/
theorem c10_witness :
    ((listTasks c10State none none).tasks.filter
      (fun e => !(e.status == TaskStatus.pending))).all
      (fun e => e.can_start == false) = true := by
  rw [List.all_eq_true]
  intro e he
  have hmem := (List.mem_filter.mp he).1
  have hcond := (List.mem_filter.mp he).2
  have hne : e.status ≠ .pending := by
    intro h
    rw [h] at hcond
    simp at hcond
  rw [c10_listTasks_filtered_canStart.1 c10State none none e hmem hne]
  rfl

/-! ## C7: `start_task` aborts untouched on git failure -/

/-- C7: on a task in status `assigned`, a worktree-creation failure of the
git driver propagates as an error and the whole store — the task record,
its `branch_name`, `worktree_path`, `started_at`, and the progress log —
is exactly the input store. -/
theorem c7_startTask_git_failure (st : Store) (taskId : String) (git : GitEnv)
    (slugify : String → String) (repoRoot now logId : String) (t : Task) (e : String)
    (hget : getTask st taskId = some t) (hstat : t.status = .assigned)
    (hgit : git.createWorktreeErr = some e) :
    ∃ msg, startTask st taskId git slugify repoRoot now logId = (st, .error msg) := by
  unfold startTask
  rw [hget]
  simp only [hstat, hgit, reduceIte]
  exact ⟨_, rfl⟩

/-- C7 witness: the theorem applied to the concrete failing start. -/
theorem c7_witness :
    ∃ msg, startTask c7State "t" c7Git (fun s => s) "/r" "n" "L" =
      (c7State, .error msg) :=
  c7_startTask_git_failure c7State "t" c7Git (fun s => s) "/r" "n" "L" c7Task
    "boom" (by decide) rfl rfl

/-! ## `claimTask` branch analysis (shared by the claim-guard results) -/

/-- The success branch of `claimTask` written out, and the failure
branches: on any failed precondition the returned store is the input
store and the output carries `success = false` with an error. -/
theorem claimTask_spec (st : Store) (taskId : String) (a : Option String)
    (g l : String) :
    (∀ t, getTask st taskId = some t → t.status = .pending →
      (∀ d ∈ getDependencies st taskId, d.status = .completed) →
      getFileOwnershipConflicts st taskId = [] →
      claimTask st taskId a g l =
        (addProgressLog
          (updateTaskQ st taskId
            { status := some .assigned, assigned_to := some (a.getD g) })
          ⟨l, taskId, .claimed, "Task claimed by " ++ a.getD g,
           some [("agent_id", Json.str (a.getD g))]⟩,
         ⟨true,
          getTask (updateTaskQ st taskId
            { status := some .assigned, assigned_to := some (a.getD g) }) taskId,
          none⟩)) ∧
    (¬(∃ t, getTask st taskId = some t ∧ t.status = .pending ∧
        (∀ d ∈ getDependencies st taskId, d.status = .completed) ∧
        getFileOwnershipConflicts st taskId = []) →
      (claimTask st taskId a g l).1 = st ∧
      (claimTask st taskId a g l).2.success = false ∧
      (claimTask st taskId a g l).2.error.isSome = true) := by
  constructor
  · intro t hget hstat hdeps hconf
    have hid : t.id = taskId := getTask_id hget
    have hu : (getDependencies st taskId).filter
        (fun d => !(d.status == TaskStatus.completed)) = [] := by
      refine List.filter_eq_nil_iff.mpr ?_
      intro d hd
      rw [hdeps d hd]
      simp
    unfold claimTask
    rw [hget]
    simp only [hid, hstat, reduceIte, hu, hconf, List.length_nil,
      Nat.lt_irrefl, gt_iff_lt]
  · intro hnot
    cases hget : getTask st taskId with
    | none =>
      unfold claimTask
      rw [hget]
      exact ⟨rfl, rfl, rfl⟩
    | some t =>
      have hid : t.id = taskId := getTask_id hget
      by_cases hstat : t.status = .pending
      · by_cases hu : (getDependencies st taskId).filter
            (fun d => !(d.status == TaskStatus.completed)) = []
        · by_cases hc : getFileOwnershipConflicts st taskId = []
          · exfalso
            apply hnot
            refine ⟨t, hget, hstat, ?_, hc⟩
            intro d hd
            by_contra hdc
            have : d ∈ (getDependencies st taskId).filter
                (fun d => !(d.status == TaskStatus.completed)) :=
              List.mem_filter.mpr ⟨hd, by simp [hdc]⟩
            rw [hu] at this
            cases this
          · have hlen : (getFileOwnershipConflicts st taskId).length > 0 :=
              List.length_pos.mpr hc
            unfold claimTask
            rw [hget]
            simp only [hid, hstat, reduceIte, hu, List.length_nil,
              Nat.lt_irrefl, gt_iff_lt, hlen, if_pos hlen]
            exact ⟨by trivial, by trivial, by trivial⟩
        · have hlen : ((getDependencies st taskId).filter
              (fun d => !(d.status == TaskStatus.completed))).length > 0 :=
            List.length_pos.mpr hu
          unfold claimTask
          rw [hget]
          simp only [hid, hstat, reduceIte, gt_iff_lt, hlen, if_pos hlen]
          exact ⟨by trivial, by trivial, by trivial⟩
      · unfold claimTask
        rw [hget]
        simp only [if_neg hstat]
        exact ⟨by trivial, by trivial, by trivial⟩

/-! ## C1: `claim_task` guarded transition -/

/-- C1: `claim_task` succeeds iff the task exists, is `pending`, every
prerequisite is `completed`, and no identical file pattern is held by an
`in_progress` task; every failure returns `{success:false, error}` with
the store (hence the task record) unchanged; success sets
`status = assigned` and `assigned_to`. -/
theorem c1_claimTask_guarded (st : Store) (taskId : String)
    (agentId : Option String) (genAgent logId : String) :
    ((claimTask st taskId agentId genAgent logId).2.success = true ↔
      (∃ t, getTask st taskId = some t ∧ t.status = .pending ∧
        (∀ d ∈ getDependencies st taskId, d.status = .completed) ∧
        getFileOwnershipConflicts st taskId = [])) ∧
    ((claimTask st taskId agentId genAgent logId).2.success = false →
      (claimTask st taskId agentId genAgent logId).1 = st ∧
      (claimTask st taskId agentId genAgent logId).2.error.isSome = true) ∧
    ((claimTask st taskId agentId genAgent logId).2.success = true →
      getTask (claimTask st taskId agentId genAgent logId).1 taskId =
        (getTask st taskId).map (fun t =>
          { t with status := .assigned,
                   assigned_to := some (agentId.getD genAgent) })) := by
  obtain ⟨hsucc, hfail⟩ := claimTask_spec st taskId agentId genAgent logId
  have hiff : (claimTask st taskId agentId genAgent logId).2.success = true ↔
      (∃ t, getTask st taskId = some t ∧ t.status = .pending ∧
        (∀ d ∈ getDependencies st taskId, d.status = .completed) ∧
        getFileOwnershipConflicts st taskId = []) := by
    constructor
    · intro h
      by_contra hnot
      have := (hfail hnot).2.1
      rw [h] at this
      cases this
    · rintro ⟨t, h1, h2, h3, h4⟩
      rw [hsucc t h1 h2 h3 h4]
  refine ⟨hiff, ?_, ?_⟩
  · intro h
    have hnot : ¬(∃ t, getTask st taskId = some t ∧ t.status = .pending ∧
        (∀ d ∈ getDependencies st taskId, d.status = .completed) ∧
        getFileOwnershipConflicts st taskId = []) := by
      intro hex
      have := hiff.mpr hex
      rw [h] at this
      cases this
    exact ⟨(hfail hnot).1, (hfail hnot).2.2⟩
  · intro h
    obtain ⟨t, h1, h2, h3, h4⟩ := hiff.mp h
    rw [hsucc t h1 h2 h3 h4]
    show getTask (updateTaskQ st taskId _) taskId = _
    rw [getTask_updateTaskQ, h1]
    rfl

/-- C1 witness: a successful concrete claim through the theorem. -/
theorem c1_witness :
    (claimTask c1State "t" (some "w") "gen" "L").2.success = true ∧
    getTask (claimTask c1State "t" (some "w") "gen" "L").1 "t" =
      (getTask c1State "t").map (fun t =>
        { t with status := .assigned, assigned_to := some "w" }) := by
  have h := c1_claimTask_guarded c1State "t" (some "w") "gen" "L"
  have hs : (claimTask c1State "t" (some "w") "gen" "L").2.success = true :=
    h.1.mpr ⟨c1Task, rfl, rfl, by decide, rfl⟩
  exact ⟨hs, h.2.2 hs⟩

/-! ## C9: the store-level conflict check ignores the ownership type -/

theorem mem_getFileOwnershipConflicts {st : Store} {taskId : String}
    {o1 o2 : TaskFileOwnership} {t2 : Task}
    (h1 : o1 ∈ st.owns) (h1id : o1.task_id = taskId)
    (h2 : o2 ∈ st.owns) (h2p : o2.file_pattern = o1.file_pattern)
    (h2id : o2.task_id ≠ taskId)
    (ht : t2 ∈ st.tasks) (htid : t2.id = o2.task_id)
    (hst : t2.status = .in_progress) :
    (⟨t2, o2.file_pattern, o2.ownership_type⟩ : FOConflict) ∈
      getFileOwnershipConflicts st taskId := by
  unfold getFileOwnershipConflicts
  rw [List.mem_flatMap]
  refine ⟨o1, List.mem_filter.mpr ⟨h1, by simp [h1id]⟩, ?_⟩
  rw [List.mem_flatMap]
  refine ⟨o2, List.mem_filter.mpr ⟨h2, by simp [h2p, h2id]⟩, ?_⟩
  rw [List.mem_map]
  exact ⟨t2, List.mem_filter.mpr ⟨ht, by simp [htid, hst]⟩, rfl⟩

/-- C9: the store-level check behind `claim_task` compares pattern strings
only — a pending task with all prerequisites completed is still refused
when an `in_progress` task holds an identical pattern even though both
ownerships are `shared`; the ownership engine, by contrast, never reports
a conflict between two `shared` patterns. -/
theorem c9_sharedPattern_claimRefused :
    (∀ (st : Store) (taskId : String) (a : Option String) (g l : String)
        (t : Task) (o1 o2 : TaskFileOwnership) (t2 : Task),
      getTask st taskId = some t → t.status = .pending →
      (∀ d ∈ getDependencies st taskId, d.status = .completed) →
      o1 ∈ st.owns → o1.task_id = taskId → o1.ownership_type = .shared →
      o2 ∈ st.owns → o2.file_pattern = o1.file_pattern →
      o2.task_id ≠ taskId → o2.ownership_type = .shared →
      t2 ∈ st.tasks → t2.id = o2.task_id → t2.status = .in_progress →
      (claimTask st taskId a g l).2.success = false ∧
      (claimTask st taskId a g l).1 = st) ∧
    (∀ (mine : List TaskFileOwnership)
        (others : List (Task × List TaskFileOwnership)),
      (∀ o ∈ mine, o.ownership_type = .shared) →
      (∀ p ∈ others, ∀ o ∈ p.2, o.ownership_type = .shared) →
      findConflicts mine others = []) := by
  constructor
  · intro st taskId a g l t o1 o2 t2 hget hstat hdeps ho1 ho1id _ ho2 ho2p
      ho2id _ ht2 ht2id ht2st
    have hconf : getFileOwnershipConflicts st taskId ≠ [] :=
      List.ne_nil_of_mem
        (mem_getFileOwnershipConflicts ho1 ho1id ho2 ho2p ho2id ht2 ht2id ht2st)
    have hnot : ¬(∃ t, getTask st taskId = some t ∧ t.status = .pending ∧
        (∀ d ∈ getDependencies st taskId, d.status = .completed) ∧
        getFileOwnershipConflicts st taskId = []) := by
      rintro ⟨t', _, _, _, h4⟩
      exact hconf h4
    obtain ⟨h1, h2, _⟩ := (claimTask_spec st taskId a g l).2 hnot
    exact ⟨h2, h1⟩
  · intro mine others hmine hothers
    refine List.eq_nil_iff_forall_not_mem.mpr ?_
    intro x hx
    unfold findConflicts at hx
    rw [List.mem_flatMap] at hx
    obtain ⟨my, hmy, hx⟩ := hx
    rw [List.mem_flatMap] at hx
    obtain ⟨other, hother, hx⟩ := hx
    rw [List.mem_filterMap] at hx
    obtain ⟨oo, hoo, hcond⟩ := hx
    rw [hmine my hmy, hothers other hother oo hoo] at hcond
    simp at hcond

/-- C9 witness: the concrete shared-vs-shared claim refusal together with
the ownership engine's empty conflict report on the same patterns. -/
theorem c9_witness :
    ((claimTask c9State "p" none "gen" "L").2.success = false ∧
     (claimTask c9State "p" none "gen" "L").1 = c9State) ∧
    findConflicts [⟨"p", "src/db/**", .shared⟩]
      [(c9TaskQ, [⟨"q", "src/db/**", .shared⟩])] = [] := by
  have h := c9_sharedPattern_claimRefused
  constructor
  · exact h.1 c9State "p" none "gen" "L" c9TaskP
      ⟨"p", "src/db/**", .shared⟩ ⟨"q", "src/db/**", .shared⟩ c9TaskQ
      rfl rfl (by decide) (by decide) rfl rfl (by decide) rfl
      (by decide) rfl (by decide) rfl rfl
  · exact h.2 [⟨"p", "src/db/**", .shared⟩]
      [(c9TaskQ, [⟨"q", "src/db/**", .shared⟩])]
      (by intro o ho; simp at ho; rw [ho])
      (by intro p hp o ho; simp at hp ho; rw [hp] at ho; simp at ho; rw [ho])

/-! ## Error-branch state lemmas -/

theorem startTask_state_of_not_assigned {st : Store} {taskId : String}
    {t : Task} (git : GitEnv) (slug : String → String) (root now l : String)
    (hget : getTask st taskId = some t) (h : t.status ≠ .assigned) :
    (startTask st taskId git slug root now l).1 = st := by
  unfold startTask
  rw [hget]
  simp only [if_neg h]

theorem completeTask_state_of_not_in_progress {st : Store} {taskId : String}
    {t : Task} (summary : String) (files : List String) (now l : String)
    (hget : getTask st taskId = some t) (h : t.status ≠ .in_progress) :
    (completeTask st taskId summary files now l).1 = st := by
  unfold completeTask
  rw [hget]
  simp only [if_neg h]

theorem mergeTask_state_of_not_in_review {st : Store} {taskId : String}
    {t : Task} (strat : Option MergeStrategy) (git : GitEnv) (now l : String)
    (hget : getTask st taskId = some t) (h : t.status ≠ .in_review) :
    (mergeTask st taskId strat git now l).1 = st := by
  unfold mergeTask
  by_cases hm : git.isOnMain = true
  · rw [if_pos hm, hget]
    simp only [if_neg h]
  · rw [if_neg hm]

theorem claimTask_state_of_not_pending {st : Store} {taskId : String}
    {t : Task} (a : Option String) (g l : String)
    (hget : getTask st taskId = some t) (h : t.status ≠ .pending) :
    (claimTask st taskId a g l).1 = st := by
  refine ((claimTask_spec st taskId a g l).2 ?_).1
  rintro ⟨t', h1, h2, _, _⟩
  rw [hget] at h1
  cases h1
  exact h h2

theorem taskStatuses_addProgressLog (st : Store) (l : ProgressLogRow) :
    taskStatuses (addProgressLog st l) = taskStatuses st := rfl

theorem taskStatuses_updateTaskQ_of_status_none (st : Store) (id : String)
    (u : TaskUpd) (h : u.status = none) :
    taskStatuses (updateTaskQ st id u) = taskStatuses st := by
  unfold taskStatuses updateTaskQ
  simp only [List.map_map]
  apply List.map_congr_left
  intro t _
  by_cases ht : (t.id == id) = true
  · simp only [Function.comp_apply, if_pos ht]
    show (applyUpd u t).status = t.status
    unfold applyUpd
    rw [h]
    rfl
  · simp only [Function.comp_apply, if_neg ht]

theorem updateProgress_taskStatuses {st : Store} {taskId : String} {t : Task}
    (p : Int) (note : String) (files : Option (List String)) (git : GitEnv)
    (l : String) (hget : getTask st taskId = some t) :
    taskStatuses (updateProgress st taskId p note files git l).1 =
      taskStatuses st := by
  unfold updateProgress
  rw [hget]
  simp only
  rw [taskStatuses_addProgressLog, taskStatuses_updateTaskQ_of_status_none]
  rfl

theorem cleanupTask_getTask {st : Store} {taskId : String} {t : Task}
    (reason : Option String) (git : GitEnv) (l : String)
    (hget : getTask st taskId = some t) :
    (getTask (cleanupTask st taskId reason git l).1 taskId).map (fun u => u.status) =
      some .failed := by
  unfold cleanupTask
  rw [hget]
  simp only
  rw [getTask_addProgressLog, getTask_id hget, getTask_updateTaskQ, hget]
  rfl

/-! ## C3: terminality of `completed` and `failed` -/

/-- C3 counterexample: the claim includes `cleanup_task` among the
operations that may not move a task out of `completed`, but `cleanup_task`
transitions any task — including a `completed` one — to `failed`. -/
theorem c3_counterexample :
    ¬ (∀ (st : Store) (id : String) (t : Task) (reason : Option String)
        (git : GitEnv) (l : String),
        getTask st id = some t →
        (t.status = .completed ∨ t.status = .failed) →
        (getTask (cleanupTask st id reason git l).1 id).map (fun u => u.status) =
          some t.status) := by
  intro h
  have hc := h c3State "t" c3Task none gitAllOk "L" rfl (Or.inl rfl)
  exact absurd hc (by decide)

/-- C3 amended: `claim_task`, `start_task`, `update_progress`,
`complete_task` and `merge_task` never change the status of a `completed`
or `failed` task (the store's status column is untouched); `cleanup_task`
sets the status of any existing task to `failed` — so `failed` is fully
terminal in value, while `completed` is exited exactly by
`cleanup_task`. -/
theorem c3_terminal_amended (st : Store) (taskId : String) (t : Task)
    (hget : getTask st taskId = some t)
    (hterm : t.status = .completed ∨ t.status = .failed) :
    (∀ (a : Option String) (g l : String),
      taskStatuses (claimTask st taskId a g l).1 = taskStatuses st) ∧
    (∀ (git : GitEnv) (slug : String → String) (root now l : String),
      taskStatuses (startTask st taskId git slug root now l).1 = taskStatuses st) ∧
    (∀ (p : Int) (note : String) (files : Option (List String)) (git : GitEnv)
        (l : String),
      taskStatuses (updateProgress st taskId p note files git l).1 = taskStatuses st) ∧
    (∀ (summary : String) (files : List String) (now l : String),
      taskStatuses (completeTask st taskId summary files now l).1 = taskStatuses st) ∧
    (∀ (strat : Option MergeStrategy) (git : GitEnv) (now l : String),
      taskStatuses (mergeTask st taskId strat git now l).1 = taskStatuses st) ∧
    (∀ (reason : Option String) (git : GitEnv) (l : String),
      (getTask (cleanupTask st taskId reason git l).1 taskId).map (fun u => u.status) =
        some .failed) := by
  have hnp : t.status ≠ .pending := by rcases hterm with h | h <;> rw [h] <;> decide
  have hna : t.status ≠ .assigned := by rcases hterm with h | h <;> rw [h] <;> decide
  have hni : t.status ≠ .in_progress := by rcases hterm with h | h <;> rw [h] <;> decide
  have hnr : t.status ≠ .in_review := by rcases hterm with h | h <;> rw [h] <;> decide
  refine ⟨?_, ?_, ?_, ?_, ?_, ?_⟩
  · intro a g l
    rw [claimTask_state_of_not_pending a g l hget hnp]
  · intro git slug root now l
    rw [startTask_state_of_not_assigned git slug root now l hget hna]
  · intro p note files git l
    exact updateProgress_taskStatuses p note files git l hget
  · intro summary files now l
    rw [completeTask_state_of_not_in_progress summary files now l hget hni]
  · intro strat git now l
    rw [mergeTask_state_of_not_in_review strat git now l hget hnr]
  · intro reason git l
    exact cleanupTask_getTask reason git l hget

/-- C3 witness: the amended statement at the concrete completed task. -/
theorem c3_witness :
    taskStatuses (claimTask c3State "t" none "g" "L").1 = taskStatuses c3State ∧
    (getTask (cleanupTask c3State "t" none gitAllOk "L").1 "t").map
      (fun u => u.status) = some .failed := by
  have h := c3_terminal_amended c3State "t" c3Task rfl (Or.inl rfl)
  exact ⟨h.1 none "g" "L", h.2.2.2.2.2 none gitAllOk "L"⟩

/-! ## Preservation of the store invariant by `updateTaskQ` -/

theorem applyUpd_id (u : TaskUpd) (t : Task) : (applyUpd u t).id = t.id := rfl

theorem ids_updateTaskQ (st : Store) (id : String) (u : TaskUpd) :
    (updateTaskQ st id u).tasks.map (fun t => t.id) =
      st.tasks.map (fun t => t.id) := by
  unfold updateTaskQ
  simp only [List.map_map]
  apply List.map_congr_left
  intro t _
  by_cases ht : (t.id == id) = true
  · simp only [Function.comp_apply, if_pos ht, applyUpd_id]
  · simp only [Function.comp_apply, if_neg ht]

theorem nodupIds_updateTaskQ {st : Store} (id : String) (u : TaskUpd)
    (h : NodupIds st) : NodupIds (updateTaskQ st id u) := by
  unfold NodupIds
  rw [ids_updateTaskQ]
  exact h

theorem mem_eq_of_nodupIds {st : Store} {id : String} {t t' : Task}
    (hnd : NodupIds st) (hget : getTask st id = some t)
    (ht' : t' ∈ st.tasks) (hid : t'.id = id) : t' = t :=
  List.inj_on_of_nodup_map hnd ht' (getTask_mem hget)
    (by rw [hid, getTask_id hget])

theorem progressInv_updateTaskQ {st : Store} {id : String} {u : TaskUpd}
    (h : ProgressInvariant st)
    (hsafe : ∀ t ∈ st.tasks, t.id = id →
      ((applyUpd u t).status = .in_review ∨ (applyUpd u t).status = .completed) →
      (applyUpd u t).progress = 100) :
    ProgressInvariant (updateTaskQ st id u) := by
  intro t' ht' hst
  unfold updateTaskQ at ht'
  simp only [List.mem_map] at ht'
  obtain ⟨t, ht, rfl⟩ := ht'
  by_cases hid : (t.id == id) = true
  · rw [if_pos hid] at hst ⊢
    exact hsafe t ht (beq_iff_eq.mp hid) hst
  · rw [if_neg hid] at hst ⊢
    exact h t ht hst

theorem good_updateTaskQ_nonReview {st : Store} (id : String) (u : TaskUpd)
    (s : TaskStatus) (hu : u.status = some s)
    (h1 : s ≠ .in_review) (h2 : s ≠ .completed)
    (h : GoodStore st) : GoodStore (updateTaskQ st id u) := by
  refine ⟨nodupIds_updateTaskQ id u h.1, progressInv_updateTaskQ h.2 ?_⟩
  intro t _ _ hst
  have hs : (applyUpd u t).status = s := by
    show u.status.getD t.status = s
    rw [hu]
    rfl
  rw [hs] at hst
  rcases hst with hst | hst
  · exact absurd hst h1
  · exact absurd hst h2

theorem good_updateTaskQ_progress100 {st : Store} (id : String) (u : TaskUpd)
    (hu : u.progress = some 100)
    (h : GoodStore st) : GoodStore (updateTaskQ st id u) := by
  refine ⟨nodupIds_updateTaskQ id u h.1, progressInv_updateTaskQ h.2 ?_⟩
  intro t _ _ _
  show u.progress.getD t.progress = 100
  rw [hu]
  rfl

theorem good_updateTaskQ_statusKeep {st : Store} {id : String} {t : Task}
    (u : TaskUpd) (hu : u.status = none)
    (hget : getTask st id = some t)
    (hsafe : (t.status = .in_review ∨ t.status = .completed) →
      u.progress.getD t.progress = 100)
    (h : GoodStore st) : GoodStore (updateTaskQ st id u) := by
  refine ⟨nodupIds_updateTaskQ id u h.1, progressInv_updateTaskQ h.2 ?_⟩
  intro t' ht' hid hst
  have heq : t' = t := mem_eq_of_nodupIds h.1 hget ht' hid
  subst heq
  have hstat : (applyUpd u t').status = t'.status := by
    show u.status.getD t'.status = t'.status
    rw [hu]
    rfl
  rw [hstat] at hst
  show u.progress.getD t'.progress = 100
  exact hsafe hst

theorem good_updateTaskQ_fromReview {st : Store} {id : String} {t : Task}
    (u : TaskUpd) (hup : u.progress = none)
    (hget : getTask st id = some t) (hrev : t.status = .in_review)
    (h : GoodStore st) : GoodStore (updateTaskQ st id u) := by
  refine ⟨nodupIds_updateTaskQ id u h.1, progressInv_updateTaskQ h.2 ?_⟩
  intro t' ht' hid _
  have heq : t' = t := mem_eq_of_nodupIds h.1 hget ht' hid
  subst heq
  show u.progress.getD t'.progress = 100
  rw [hup]
  show t'.progress = 100
  exact h.2 t' ht' (Or.inl hrev)

theorem good_of_tasks_eq {st st' : Store} (h : st'.tasks = st.tasks)
    (hg : GoodStore st) : GoodStore st' := by
  unfold GoodStore NodupIds ProgressInvariant at hg ⊢
  rw [h]
  exact hg

/-! ## Preservation of the store invariant by each service operation -/

theorem good_unlockFoldl (snap : List Task) (ids : List String) :
    ∀ st, GoodStore st → GoodStore (ids.foldl (fun s i =>
      match snap.find? (fun t => t.id == i) with
      | some t =>
        if t.status = .blocked then updateTaskQ s i { status := some .pending } else s
      | none => s) st) := by
  induction ids with
  | nil => intro st h; exact h
  | cons i rest ih =>
    intro st h
    rw [List.foldl_cons]
    apply ih
    cases hf : snap.find? (fun t => t.id == i) with
    | none => exact h
    | some t =>
      by_cases hb : t.status = .blocked
      · simp only [if_pos hb]
        exact good_updateTaskQ_nonReview i _ .pending rfl (by decide) (by decide) h
      · simp only [if_neg hb]
        exact h

theorem good_claimTask {st : Store} (id : String) (a : Option String)
    (g l : String) (h : GoodStore st) : GoodStore (claimTask st id a g l).1 := by
  by_cases hex : ∃ t, getTask st id = some t ∧ t.status = .pending ∧
      (∀ d ∈ getDependencies st id, d.status = .completed) ∧
      getFileOwnershipConflicts st id = []
  · obtain ⟨t, h1, h2, h3, h4⟩ := hex
    rw [(claimTask_spec st id a g l).1 t h1 h2 h3 h4]
    exact good_updateTaskQ_nonReview id _ .assigned rfl (by decide) (by decide) h
  · rw [((claimTask_spec st id a g l).2 hex).1]
    exact h

theorem good_startTask {st : Store} (id : String) (git : GitEnv)
    (slug : String → String) (root now l : String) (h : GoodStore st) :
    GoodStore (startTask st id git slug root now l).1 := by
  unfold startTask
  cases hget : getTask st id with
  | none => exact h
  | some t =>
    by_cases hs : t.status = .assigned
    · simp only [if_pos hs]
      cases git.createWorktreeErr with
      | some e => exact h
      | none =>
        exact good_updateTaskQ_nonReview t.id _ .in_progress rfl (by decide) (by decide) h
    · simp only [if_neg hs]
      exact h

theorem good_updateProgress {st : Store} (id : String) (p : Int) (note : String)
    (files : Option (List String)) (git : GitEnv) (l : String)
    (hok : ∀ t, getTask st id = some t →
      (t.status = .in_review ∨ t.status = .completed) → p = 100)
    (h : GoodStore st) : GoodStore (updateProgress st id p note files git l).1 := by
  unfold updateProgress
  cases hget : getTask st id with
  | none => exact h
  | some t =>
    have hget' : getTask st t.id = some t := by rw [getTask_id hget]; exact hget
    refine good_updateTaskQ_statusKeep _ rfl hget' ?_ h
    intro hrc
    show (some p).getD t.progress = 100
    rw [Option.getD_some]
    exact hok t hget hrc

theorem good_completeTask {st : Store} (id : String) (summary : String)
    (files : List String) (now l : String) (h : GoodStore st) :
    GoodStore (completeTask st id summary files now l).1 := by
  unfold completeTask
  cases hget : getTask st id with
  | none => exact h
  | some t =>
    by_cases hs : t.status = .in_progress
    · simp only [if_pos hs]
      exact good_unlockFoldl _ _ _ (good_updateTaskQ_progress100 t.id _ rfl h)
    · simp only [if_neg hs]
      exact h

theorem good_mergeTask {st : Store} (id : String) (strat : Option MergeStrategy)
    (git : GitEnv) (now l : String) (h : GoodStore st) :
    GoodStore (mergeTask st id strat git now l).1 := by
  unfold mergeTask
  by_cases hm : git.isOnMain = true
  · rw [if_pos hm]
    cases hget : getTask st id with
    | none => exact h
    | some t =>
      by_cases hs : t.status = .in_review
      · simp only [if_pos hs]
        cases hb : t.branch_name with
        | none => exact h
        | some b =>
          by_cases hbe : b = ""
          · simp only [if_pos hbe]
            exact h
          · simp only [if_neg hbe]
            cases hmb : gitMergeBranch git b with
            | error e => exact h
            | ok pr =>
              obtain ⟨succ, cfiles⟩ := pr
              cases succ with
              | true =>
                have hget' : getTask st t.id = some t := by
                  rw [getTask_id hget]; exact hget
                exact good_unlockFoldl _ _ _
                  (good_updateTaskQ_fromReview _ rfl hget' hs h)
              | false => exact h
      · simp only [if_neg hs]
        exact h
  · rw [if_neg hm]
    exact h

theorem good_cleanupTask {st : Store} (id : String) (reason : Option String)
    (git : GitEnv) (l : String) (h : GoodStore st) :
    GoodStore (cleanupTask st id reason git l).1 := by
  unfold cleanupTask
  cases hget : getTask st id with
  | none => exact h
  | some t =>
    exact good_updateTaskQ_nonReview t.id _ .failed rfl (by decide) (by decide) h

/-! ## Preservation through `createTasks` -/

theorem createGroup_tasks (st : Store) (g : TaskGroup) :
    (createGroup st g).1.tasks = st.tasks := by
  unfold createGroup
  by_cases h : st.groups.any (fun x => x.id == g.id) = true
  · rw [if_pos h]
  · rw [if_neg h]

theorem good_createTaskQ {st : Store} {t : Task} (hst : t.status = .pending)
    (h : GoodStore st) : GoodStore (createTaskQ st t).1 := by
  unfold createTaskQ
  by_cases h1 : st.tasks.any (fun x => x.id == t.id) = true
  · rw [if_pos h1]
    exact h
  · rw [if_neg h1]
    by_cases h2 : (!(st.groups.any (fun g => g.id == t.group_id))) = true
    · rw [if_pos h2]
      exact h
    · rw [if_neg h2]
      constructor
      · show ((st.tasks ++ [t]).map (fun x => x.id)).Nodup
        rw [List.map_append]
        rw [List.nodup_append]
        refine ⟨h.1, List.nodup_singleton _, ?_⟩
        intro x hx hx1
        simp only [List.map_cons, List.map_nil, List.mem_singleton] at hx1
        rw [List.mem_map] at hx
        obtain ⟨y, hy, rfl⟩ := hx
        rw [List.any_eq_true] at h1
        exact h1 ⟨y, hy, by rw [beq_iff_eq]; exact hx1⟩
      · intro t' ht' hrc
        rcases List.mem_append.mp ht' with hold | hnew
        · exact h.2 t' hold hrc
        · rw [List.mem_singleton] at hnew
          subst hnew
          rw [hst] at hrc
          rcases hrc with hc | hc <;> cases hc

theorem good_createTaskQ_pending (gid now : String) (ids : List String)
    (i : Nat) (item : TaskItemInput) {st : Store} (h : GoodStore st) :
    GoodStore (createTaskQ st
      { id := idAt ids i, group_id := gid, sequence := i + 1,
        title := item.title, description := item.description,
        status := .pending, priority := item.priority.getD .medium,
        assigned_to := none, branch_name := none, worktree_path := none,
        progress := 0, progress_note := none, created_at := now,
        started_at := none, completed_at := none, merged_at := none }).1 :=
  good_createTaskQ rfl h

theorem good_insertLoop (gid now : String) (ids : List String) :
    ∀ (items : List TaskItemInput) (i : Nat) (st : Store), GoodStore st →
      GoodStore (createTasksInsertLoop gid now ids i items st).1 := by
  intro items
  induction items with
  | nil => intro i st h; exact h
  | cons item rest ih =>
    intro i st h
    unfold createTasksInsertLoop
    dsimp only
    split
    · rename_i st1 e heq
      have h2 := good_createTaskQ_pending gid now ids i item h
      rw [heq] at h2
      exact h2
    · rename_i st1 heq
      apply ih
      have h2 := good_createTaskQ_pending gid now ids i item h
      rw [heq] at h2
      exact h2

theorem addDependency_tasks (st : Store) (a b : String) :
    (addDependency st a b).tasks = st.tasks := by
  unfold addDependency
  by_cases h : st.deps.contains (a, b) = true
  · rw [if_pos h]
  · rw [if_neg h]

theorem depsFold_tasks (tid : String) (ids : List String) (n si : Nat)
    (title : String) :
    ∀ (ls : List Nat) (st : Store) (deps ws : List String),
      (depsFold tid ids n si title ls st deps ws).1.tasks = st.tasks := by
  intro ls
  induction ls with
  | nil => intro st deps ws; rfl
  | cons x rest ih =>
    intro st deps ws
    show (depsFold tid ids n si title (x :: rest) st deps ws).1.tasks = st.tasks
    unfold depsFold
    by_cases hc : 1 ≤ x ∧ x ≤ n
    · rw [if_pos hc, ih, addDependency_tasks]
    · rw [if_neg hc, ih]

theorem createTasksDepsLoop_tasks (ids : List String) (n : Nat) :
    ∀ (items : List TaskItemInput) (i : Nat) (st : Store) (m : DepMap)
      (ws : List String),
      (createTasksDepsLoop ids n i items st m ws).1.tasks = st.tasks := by
  intro items
  induction items with
  | nil => intro i st m ws; rfl
  | cons item rest ih =>
    intro i st m ws
    unfold createTasksDepsLoop
    rw [ih, depsFold_tasks]

theorem foldl_addFileOwnership_tasks (tid : String) :
    ∀ (l : List FilePatternInput) (st : Store),
      (l.foldl (fun s fp =>
        addFileOwnership s ⟨tid, fp.pattern, fp.ownership_type⟩) st).tasks =
        st.tasks := by
  intro l
  induction l with
  | nil => intro st; rfl
  | cons fp rest ih =>
    intro st
    rw [List.foldl_cons, ih]
    rfl

theorem createTasksOwnsLoop_tasks (ids : List String) :
    ∀ (items : List TaskItemInput) (i : Nat) (st : Store),
      (createTasksOwnsLoop ids i items st).tasks = st.tasks := by
  intro items
  induction items with
  | nil => intro i st; rfl
  | cons item rest ih =>
    intro i st
    unfold createTasksOwnsLoop
    rw [ih, foldl_addFileOwnership_tasks]

theorem good_finalizeLoop (ids : List String) (m : DepMap) :
    ∀ (items : List TaskItemInput) (i : Nat) (st : Store), GoodStore st →
      GoodStore (createTasksFinalizeLoop ids m i items st).1 := by
  intro items
  induction items with
  | nil => intro i st h; exact h
  | cons item rest ih =>
    intro i st h
    unfold createTasksFinalizeLoop
    apply ih
    by_cases hd : ((mget m (idAt ids i)).getD []).length > 0
    · rw [if_pos hd]
      exact good_updateTaskQ_nonReview _ _ .blocked rfl (by decide) (by decide) h
    · rw [if_neg hd]
      exact h

theorem good_createTasks {st : Store} (inp : CreateInput) (gid : String)
    (ids : List String) (now : String) (h : GoodStore st) :
    GoodStore (createTasks st inp gid ids now).1 := by
  unfold createTasks
  split
  · rename_i st0 e hg
    refine good_of_tasks_eq ?_ h
    have h2 := createGroup_tasks st
      ⟨gid, inp.group_title, inp.group_description, "active", now⟩
    rw [hg] at h2
    exact h2
  · rename_i st0 hg
    have hg0 : GoodStore st0 := by
      refine good_of_tasks_eq ?_ h
      have h2 := createGroup_tasks st
        ⟨gid, inp.group_title, inp.group_description, "active", now⟩
      rw [hg] at h2
      exact h2
    split
    · rename_i st1 e hi
      have h2 := good_insertLoop gid now ids inp.tasks 0 st0 hg0
      rw [hi] at h2
      exact h2
    · rename_i st1 hi
      have hg1 : GoodStore st1 := by
        have h2 := good_insertLoop gid now ids inp.tasks 0 st0 hg0
        rw [hi] at h2
        exact h2
      apply good_finalizeLoop
      refine good_of_tasks_eq ?_ hg1
      rw [createTasksOwnsLoop_tasks, createTasksDepsLoop_tasks]

/-! ## The invariant along safe histories -/

theorem applyOp_good {st : Store} {op : Op} (h : GoodStore st)
    (hok : OkOp st op) : GoodStore (applyOp st op) := by
  cases op with
  | create inp gid ids now => exact good_createTasks inp gid ids now h
  | listT g s => exact h
  | getT i => exact h
  | claim id a g l => exact good_claimTask id a g l h
  | start id git slug root now l => exact good_startTask id git slug root now l h
  | update id p note files git l => exact good_updateProgress id p note files git l hok h
  | complete id sm f now l => exact good_completeTask id sm f now l h
  | merge id strat git now l => exact good_mergeTask id strat git now l h
  | cleanup id r git l => exact good_cleanupTask id r git l h

theorem safeReach_good {st : Store} (h : SafeReach st) : GoodStore st := by
  induction h with
  | base =>
    exact ⟨List.nodup_nil, fun t ht => absurd ht (List.not_mem_nil t)⟩
  | step st op hs hok ih => exact applyOp_good ih hok

/-! ## C2: the progress invariant -/

/-- C2 counterexample: the invariant fails on a reachable state —
`update_progress` has no status guard, so after create → claim → start →
complete the `in_review` task can be given progress 50. -/
theorem c2_counterexample :
    ¬ (∀ st, Reachable st → ProgressInvariant st) := by
  intro h
  have h1 : (getTask c2BadState "t1").map (fun t => (t.status, t.progress)) =
      some (TaskStatus.in_review, (50 : Int)) := by decide
  cases hgt : getTask c2BadState "t1" with
  | none => rw [hgt] at h1; cases h1
  | some t =>
    rw [hgt] at h1
    have hmem := getTask_mem hgt
    have h2 : (t.status, t.progress) = (TaskStatus.in_review, (50 : Int)) :=
      Option.some_inj.mp h1
    have hs : t.status = .in_review := congrArg Prod.fst h2
    have hp : t.progress = 50 := congrArg Prod.snd h2
    have h100 := h c2BadState ⟨c2Ops, rfl⟩ t hmem (Or.inl hs)
    rw [hp] at h100
    exact absurd h100 (by decide)

/-- C2 amended: in every state reachable by a history in which
`update_progress` never writes a progress other than 100 to a task already
`in_review` or `completed`, every `in_review` or `completed` task has
progress 100. (The unrestricted claim is refuted by
`c2_counterexample`.) -/
theorem c2_progress_invariant_amended (st : Store) (h : SafeReach st) :
    ProgressInvariant st :=
  (safeReach_good h).2

/-- C2 witness: the amended invariant on the store created by a concrete
`create_tasks`. -/
theorem c2_witness :
    ProgressInvariant (applyOp emptyStore (.create c2Input "g1" ["t1"] "n0")) :=
  c2_progress_invariant_amended _ (SafeReach.step _ _ SafeReach.base trivial)

/-! ## Lemmas toward C4 -/

theorem find?_beq_map_id_preserving (f : Task → Task)
    (hf : ∀ x, (f x).id = x.id) (y : String) :
    ∀ l : List Task,
      (l.map f).find? (fun x => x.id == y) =
        (l.find? (fun x => x.id == y)).map f := by
  intro l
  induction l with
  | nil => rfl
  | cons t rest ih =>
    simp only [List.map_cons, List.find?]
    cases hy : (t.id == y) with
    | true =>
      have h1 : ((f t).id == y) = true := by rw [hf]; exact hy
      simp only [h1]
      rfl
    | false =>
      have h1 : ((f t).id == y) = false := by rw [hf]; exact hy
      simp only [h1]
      exact ih

theorem find?_beq_of_nodup :
    ∀ (l : List Task), (l.map (fun x => x.id)).Nodup →
      ∀ {u : Task}, u ∈ l → ∀ {y : String}, u.id = y →
        l.find? (fun x => x.id == y) = some u := by
  intro l
  induction l with
  | nil => intro _ u hu; cases hu
  | cons t rest ih =>
    intro hnd u hu y hid
    simp only [List.map_cons, List.nodup_cons] at hnd
    rcases List.mem_cons.mp hu with rfl | hmem
    · have h1 : (u.id == y) = true := beq_iff_eq.mpr hid
      simp only [List.find?, h1]
    · have hne : t.id ≠ y := by
        intro hc
        exact hnd.1 (List.mem_map.mpr ⟨u, hmem, by rw [hid, hc]⟩)
      have h1 : (t.id == y) = false := beq_eq_false_iff_ne.mpr hne
      simp only [List.find?, h1]
      exact ih hnd.2 hmem hid

theorem getTask_of_mem_nodup {st : Store} (hnd : NodupIds st) {u : Task}
    (hu : u ∈ st.tasks) : getTask st u.id = some u :=
  find?_beq_of_nodup st.tasks hnd hu rfl

theorem getTask_updateTaskQ_general (st : Store) (id : String) (u : TaskUpd)
    (y : String) :
    getTask (updateTaskQ st id u) y =
      (getTask st y).map (fun x => if (x.id == id) = true then applyUpd u x else x) := by
  unfold getTask updateTaskQ
  exact find?_beq_map_id_preserving _
    (fun x => by by_cases h : (x.id == id) = true
                 · rw [if_pos h]; rfl
                 · rw [if_neg h]) y st.tasks

theorem filterMap_getTask_ids (st : Store) (id : String) (u : TaskUpd) :
    ∀ L : List (String × String),
      ((L.filterMap (fun e => getTask (updateTaskQ st id u) e.2)).map (fun d => d.id)) =
      ((L.filterMap (fun e => getTask st e.2)).map (fun d => d.id)) := by
  intro L
  induction L with
  | nil => rfl
  | cons e rest ih =>
    simp only [List.filterMap_cons]
    rw [getTask_updateTaskQ_general]
    cases hg : getTask st e.2 with
    | none => exact ih
    | some d =>
      simp only [Option.map_some', List.map_cons]
      rw [ih]
      congr 1
      by_cases hd : (d.id == id) = true
      · rw [if_pos hd]; rfl
      · rw [if_neg hd]

theorem depIds_updateTaskQ (st : Store) (id : String) (u : TaskUpd) (x : String) :
    (getDependencies (updateTaskQ st id u) x).map (fun d => d.id) =
      (getDependencies st x).map (fun d => d.id) := by
  show ((((updateTaskQ st id u).deps.filter (fun e => e.1 == x)).filterMap
      (fun e => getTask (updateTaskQ st id u) e.2)).map (fun d => d.id)) = _
  exact filterMap_getTask_ids st id u _

theorem listTasksQ_updateTaskQ_group (st : Store) (id : String) (u : TaskUpd)
    (g : Option String) :
    listTasksQ (updateTaskQ st id u) g none =
      (listTasksQ st g none).map
        (fun x => if (x.id == id) = true then applyUpd u x else x) := by
  unfold listTasksQ updateTaskQ
  simp only
  rw [List.filter_map]
  congr 1
  apply List.filter_congr
  intro x _
  by_cases hx : (x.id == id) = true
  · simp only [Function.comp_apply, if_pos hx]
    rfl
  · simp only [Function.comp_apply, if_neg hx]

theorem groupDepMap_updateTaskQ (st : Store) (id : String) (u : TaskUpd) :
    ∀ (l : List Task) (m : DepMap),
      ((l.map (fun x => if (x.id == id) = true then applyUpd u x else x)).foldl
        (fun acc w => mset acc w.id
          ((getDependencies (updateTaskQ st id u) w.id).map (fun d => d.id))) m) =
      (l.foldl (fun acc w => mset acc w.id
          ((getDependencies st w.id).map (fun d => d.id))) m) := by
  intro l
  induction l with
  | nil => intro m; rfl
  | cons x rest ih =>
    intro m
    simp only [List.map_cons, List.foldl_cons]
    have hid : (if (x.id == id) = true then applyUpd u x else x).id = x.id := by
      by_cases h : (x.id == id) = true
      · rw [if_pos h]; rfl
      · rw [if_neg h]
    rw [hid, depIds_updateTaskQ]
    exact ih _

theorem mem_mset {k : String} {v : List String} :
    ∀ {m : DepMap} {e : String × List String}, e ∈ mset m k v →
      e = (k, v) ∨ e ∈ m := by
  intro m
  induction m with
  | nil =>
    intro e he
    unfold mset at he
    rcases List.mem_singleton.mp he with rfl
    exact Or.inl rfl
  | cons x rest ih =>
    intro e he
    unfold mset at he
    by_cases hx : (x.1 == k) = true
    · rw [if_pos hx] at he
      rcases List.mem_cons.mp he with rfl | hm
      · exact Or.inl rfl
      · exact Or.inr (List.mem_cons_of_mem _ hm)
    · rw [if_neg hx] at he
      rcases List.mem_cons.mp he with rfl | hm
      · exact Or.inr (List.mem_cons_self _ _)
      · rcases ih hm with h | h
        · exact Or.inl h
        · exact Or.inr (List.mem_cons_of_mem _ h)

theorem mem_foldl_mset (f : Task → List String) :
    ∀ (l : List Task) (m : DepMap) (e : String × List String),
      e ∈ l.foldl (fun acc w => mset acc w.id (f w)) m →
      e ∈ m ∨ ∃ w ∈ l, w.id = e.1 := by
  intro l
  induction l with
  | nil => intro m e he; exact Or.inl he
  | cons x rest ih =>
    intro m e he
    rw [List.foldl_cons] at he
    rcases ih _ _ he with hm | ⟨w, hw, hwe⟩
    · rcases mem_mset hm with rfl | hmm
      · exact Or.inr ⟨x, List.mem_cons_self _ _, rfl⟩
      · exact Or.inl hmm
    · exact Or.inr ⟨w, List.mem_cons_of_mem _ hw, hwe⟩

theorem getUnlockedTasks_mem {c x : String} {m : DepMap} {comp : List String}
    (h : x ∈ getUnlockedTasks c m comp) :
    (∃ e ∈ m, e.1 = x) ∧ x ≠ c := by
  unfold getUnlockedTasks at h
  rw [List.mem_filterMap] at h
  obtain ⟨e, hem, hfe⟩ := h
  by_cases h1 : (setAdd comp c).contains e.1 = true
  · rw [if_pos h1] at hfe; cases hfe
  · rw [if_neg h1] at hfe
    by_cases h2 : e.2.contains c = true
    · rw [if_neg (by rw [h2]; simp)] at hfe
      by_cases h3 : (e.2.all (fun d => (setAdd comp c).contains d)) = true
      · rw [if_pos h3, Option.some_inj] at hfe
        refine ⟨⟨e, hem, hfe⟩, ?_⟩
        intro hc
        apply h1
        rw [hfe, hc]
        exact (contains_iff_mem _ _).mpr ((setAdd_mem comp c c).mpr (Or.inr rfl))
      · rw [if_neg h3] at hfe; cases hfe
    · rw [if_pos (by rw [Bool.not_eq_true] at h2; rw [h2]; rfl)] at hfe
      cases hfe

theorem getUnlockedTasks_congr (c : String) (m : DepMap)
    (comp1 comp2 : List String)
    (h : ∀ x, x ∈ setAdd comp1 c ↔ x ∈ setAdd comp2 c) :
    getUnlockedTasks c m comp1 = getUnlockedTasks c m comp2 := by
  have hcont : List.contains (setAdd comp1 c) = List.contains (setAdd comp2 c) := by
    funext x
    cases h1 : (setAdd comp1 c).contains x with
    | true =>
      have := (h x).mp ((contains_iff_mem _ _).mp h1)
      exact ((contains_iff_mem _ _).mpr this).symm
    | false =>
      cases h2 : (setAdd comp2 c).contains x with
      | true =>
        have := (h x).mpr ((contains_iff_mem _ _).mp h2)
        rw [← h1]
        exact ((contains_iff_mem _ _).mpr this)
      | false => rfl
  unfold getUnlockedTasks
  refine congrArg (fun f => List.filterMap f m) (funext fun e => ?_)
  rw [hcont]

theorem pend_idem (w : Task) :
    applyUpd { status := some .pending }
      (applyUpd { status := some .pending } w) =
    applyUpd { status := some .pending } w := rfl

theorem unlockCond_none {snap : List Task} {i : String}
    (hf : snap.find? (fun x => x.id == i) = none) : unlockCond snap i = false := by
  unfold unlockCond
  rw [hf]

theorem unlockCond_some {snap : List Task} {i : String} {x : Task}
    (hf : snap.find? (fun x => x.id == i) = some x) :
    unlockCond snap i = (x.status == .blocked) := by
  unfold unlockCond
  rw [hf]

theorem unlockStep_skip (snap : List Task) (i : String) (rest : List String)
    (hQ : unlockCond snap i = false) (w : Task) :
    (if (rest.contains w.id && unlockCond snap w.id) = true then
      applyUpd { status := some .pending } w else w) =
    (if ((i :: rest).contains w.id && unlockCond snap w.id) = true then
      applyUpd { status := some .pending } w else w) := by
  by_cases hw : w.id = i
  · rw [hw, hQ, Bool.and_false, Bool.and_false]
  · rw [List.contains_cons]
    have hne : (w.id == i) = false := beq_eq_false_iff_ne.mpr hw
    rw [hne, Bool.false_or]

theorem unlockStep_upd (snap : List Task) (i : String) (rest : List String)
    {x : Task} (hf : snap.find? (fun v => v.id == i) = some x)
    (hb : x.status = .blocked) (w : Task) :
    (if (rest.contains (if (w.id == i) = true then
            applyUpd { status := some .pending } w else w).id &&
          unlockCond snap (if (w.id == i) = true then
            applyUpd { status := some .pending } w else w).id) = true then
        applyUpd { status := some .pending }
          (if (w.id == i) = true then applyUpd { status := some .pending } w else w)
      else (if (w.id == i) = true then applyUpd { status := some .pending } w else w)) =
    (if ((i :: rest).contains w.id && unlockCond snap w.id) = true then
      applyUpd { status := some .pending } w else w) := by
  by_cases hw : (w.id == i) = true
  · rw [if_pos hw]
    have hid : (applyUpd { status := some .pending } w).id = w.id := rfl
    rw [hid]
    have hQw : unlockCond snap w.id = true := by
      rw [beq_iff_eq.mp hw, unlockCond_some hf, hb]
      rfl
    rw [hQw, Bool.and_true, Bool.and_true, List.contains_cons, hw, Bool.true_or]
    rw [if_pos rfl]
    cases hr : rest.contains w.id with
    | true => rw [if_pos rfl, pend_idem]
    | false => rw [if_neg (by simp)]
  · rw [if_neg hw]
    rw [List.contains_cons]
    have hne : (w.id == i) = false := by rwa [Bool.not_eq_true] at hw
    rw [hne, Bool.false_or]

theorem getTask_unlockFoldl (snap : List Task) :
    ∀ (L : List String) (s : Store) (y : String),
      getTask (L.foldl (fun s i =>
        match snap.find? (fun x => x.id == i) with
        | some x =>
          if x.status = .blocked then updateTaskQ s i { status := some .pending }
          else s
        | none => s) s) y =
      (getTask s y).map (fun x =>
        if (L.contains x.id && unlockCond snap x.id) = true then
          applyUpd { status := some .pending } x
        else x) := by
  intro L
  induction L with
  | nil =>
    intro s y
    rw [List.foldl_nil]
    cases getTask s y <;> rfl
  | cons i rest ih =>
    intro s y
    rw [List.foldl_cons]
    cases hf : snap.find? (fun x => x.id == i) with
    | none =>
      dsimp only
      rw [ih]
      cases getTask s y with
      | none => rfl
      | some w => exact congrArg some (unlockStep_skip snap i rest (unlockCond_none hf) w)
    | some x =>
      by_cases hb : x.status = .blocked
      · simp only [if_pos hb]
        rw [ih, getTask_updateTaskQ_general]
        cases getTask s y with
        | none => rfl
        | some w => exact congrArg some (unlockStep_upd snap i rest hf hb w)
      · simp only [if_neg hb]
        rw [ih]
        cases getTask s y with
        | none => rfl
        | some w =>
          refine congrArg some (unlockStep_skip snap i rest ?_ w)
          rw [unlockCond_some hf, beq_eq_false_iff_ne]
          exact hb

theorem completedOrReviewIds_mem {l : List Task} {x : String} :
    x ∈ completedOrReviewIds l ↔
      ∃ w ∈ l, (w.status == TaskStatus.completed || w.status == TaskStatus.in_review) = true ∧
        w.id = x := by
  unfold completedOrReviewIds
  rw [List.mem_map]
  constructor
  · rintro ⟨w, hw, rfl⟩
    have := List.mem_filter.mp hw
    exact ⟨w, this.1, this.2, rfl⟩
  · rintro ⟨w, hw, hcond, rfl⟩
    exact ⟨w, List.mem_filter.mpr ⟨hw, hcond⟩, rfl⟩

theorem completedIds_map_mem (orig : List Task) (taskId tdotid : String)
    (htid : tdotid = taskId) (u : TaskUpd) :
    ∀ x, x ∈ setAdd (completedOrReviewIds
        (orig.map (fun w => if (w.id == taskId) = true then applyUpd u w else w))) tdotid ↔
      x ∈ setAdd (completedOrReviewIds orig) tdotid := by
  intro x
  rw [setAdd_mem, setAdd_mem]
  by_cases hx : x = tdotid
  · simp [hx]
  · have hiff : x ∈ completedOrReviewIds
        (orig.map (fun w => if (w.id == taskId) = true then applyUpd u w else w)) ↔
        x ∈ completedOrReviewIds orig := by
      rw [completedOrReviewIds_mem, completedOrReviewIds_mem]
      constructor
      · rintro ⟨w', hw', hcond, hid⟩
        rw [List.mem_map] at hw'
        obtain ⟨w, hw, rfl⟩ := hw'
        by_cases hwi : (w.id == taskId) = true
        · exfalso
          apply hx
          rw [← hid, htid]
          rw [if_pos hwi]
          exact beq_iff_eq.mp hwi
        · rw [if_neg hwi] at hcond hid
          exact ⟨w, hw, hcond, hid⟩
      · rintro ⟨w, hw, hcond, hid⟩
        have hwi : (w.id == taskId) = false := by
          rw [beq_eq_false_iff_ne]
          intro hc
          exact hx (by rw [← hid, htid, hc])
        refine ⟨w, List.mem_map.mpr ⟨w, hw, ?_⟩, ?_, ?_⟩
        · rw [if_neg (by rw [hwi]; simp)]
        · exact hcond
        · exact hid
    rw [hiff]

theorem contains_self_getUnlockedTasks (c : String) (m : DepMap)
    (comp : List String) : (getUnlockedTasks c m comp).contains c = false := by
  cases hc : (getUnlockedTasks c m comp).contains c with
  | false => rfl
  | true => exact absurd rfl (getUnlockedTasks_mem ((contains_iff_mem _ _).mp hc)).2

theorem iteUpd_id (taskId : String) (u : TaskUpd) (x : Task) :
    (if (x.id == taskId) = true then applyUpd u x else x).id = x.id := by
  by_cases h : (x.id == taskId) = true
  · rw [if_pos h]; rfl
  · rw [if_neg h]

theorem setAdd_setAdd_iff {l1 l2 : List String} {c : String}
    (h : ∀ x, x ∈ setAdd l1 c ↔ x ∈ setAdd l2 c) (x : String) :
    x ∈ setAdd (setAdd l1 c) c ↔ x ∈ setAdd (setAdd l2 c) c := by
  rw [setAdd_mem (setAdd l1 c) c x, setAdd_mem (setAdd l2 c) c x]
  exact or_congr (h x) Iff.rfl

theorem unlocked_eq_spec (st : Store) (t : Task) (taskId : String) (u : TaskUpd)
    (hid : t.id = taskId) :
    getUnlockedTasks taskId
      (List.foldl (fun acc w => mset acc w.id
          (List.map (fun d => d.id) (getDependencies st w.id))) []
        (listTasksQ st (some t.group_id) none))
      (setAdd (List.map (fun d => d.id)
        (List.filter (fun v => v.status == TaskStatus.completed ||
            v.status == TaskStatus.in_review)
          (List.map (fun x => if (x.id == taskId) = true then applyUpd u x else x)
            (listTasksQ st (some t.group_id) none)))) taskId) =
      unlockedSpec st t := by
  subst hid
  unfold unlockedSpec
  exact getUnlockedTasks_congr _ _ _ _
    (setAdd_setAdd_iff (completedIds_map_mem (groupTasksOf st t) t.id t.id rfl u))

theorem unlockCond_map_upd_some (orig : List Task) (taskId : String) (u : TaskUpd)
    (hnodup : (orig.map (fun x => x.id)).Nodup) {w : Task} (hw : w ∈ orig)
    (hne : (w.id == taskId) = false) :
    unlockCond (List.map (fun x => if (x.id == taskId) = true then applyUpd u x else x) orig)
        w.id = (w.status == TaskStatus.blocked) := by
  have hfind := find?_beq_map_id_preserving
      (fun x => if (x.id == taskId) = true then applyUpd u x else x)
      (iteUpd_id taskId u) w.id orig
  rw [find?_beq_of_nodup orig hnodup hw rfl, Option.map_some'] at hfind
  rw [unlockCond_some hfind, hne]
  simp only [Bool.false_eq_true, if_false]

theorem unlockCond_map_upd_none (orig : List Task) (taskId : String) (u : TaskUpd)
    (y : String) (hnone : orig.find? (fun x => x.id == y) = none) :
    unlockCond (List.map (fun x => if (x.id == taskId) = true then applyUpd u x else x) orig)
        y = false := by
  have hfind := find?_beq_map_id_preserving
      (fun x => if (x.id == taskId) = true then applyUpd u x else x)
      (iteUpd_id taskId u) y orig
  rw [hnone, Option.map_none'] at hfind
  exact unlockCond_none hfind

theorem nodupIds_listTasksQ {st : Store} (hnd : NodupIds st) (g : Option String)
    (s : Option (List TaskStatus)) :
    ((listTasksQ st g s).map (fun x => x.id)).Nodup := by
  unfold listTasksQ
  exact hnd.sublist ((List.filter_sublist _).map _)

theorem eq_of_mem_of_id_eq {st : Store} (hnd : NodupIds st) {w u : Task}
    (hw : w ∈ st.tasks) (hu : u ∈ st.tasks) (h : w.id = u.id) : w = u :=
  List.inj_on_of_nodup_map hnd hw hu h

theorem not_mem_unlockedSpec {st : Store} (hnd : NodupIds st) {t u : Task}
    (hu : u ∈ st.tasks) (hgm : u ∉ listTasksQ st (some t.group_id) none) :
    u.id ∉ unlockedSpec st t := by
  intro hs
  unfold unlockedSpec at hs
  obtain ⟨⟨e, he, he1⟩, _⟩ := getUnlockedTasks_mem hs
  unfold groupDepMap at he
  rcases mem_foldl_mset (fun w => (getDependencies st w.id).map (fun d => d.id)) _ _ _ he with
    h0 | ⟨w, hw, hwid⟩
  · cases h0
  · have hweq : w = u := eq_of_mem_of_id_eq hnd
      (List.mem_of_mem_filter hw) hu (by rw [hwid, he1])
    exact hgm (by rw [← hweq]; exact hw)

set_option maxHeartbeats 1000000 in
/-- C4: `complete_task` on an `in_progress` task sets it to `in_review`
with `completed_at = now`, `progress = 100` and the summary as progress
note; every other task transitions from `blocked` to `pending` exactly
when its id is unlocked by the completion (the DAG engine applied to the
full group dependency map with the group's `completed`-or-`in_review`
ids plus the completed task as completed set), and is untouched
otherwise. -/
theorem c4_completeTask_transitions (st : Store) (taskId : String) (t : Task)
    (summary : String) (files : List String) (now logId : String)
    (hget : getTask st taskId = some t) (hs : t.status = .in_progress)
    (hnd : NodupIds st) :
    (getTask (completeTask st taskId summary files now logId).1 taskId =
      some { t with status := .in_review, completed_at := some now,
                    progress := 100, progress_note := some summary }) ∧
    (∀ u ∈ st.tasks, u.id ≠ taskId →
      getTask (completeTask st taskId summary files now logId).1 u.id =
        some (if u.id ∈ unlockedSpec st t ∧ u.status = .blocked then
          { u with status := .pending } else u)) := by
  have hid : t.id = taskId := getTask_id hget
  unfold completeTask
  rw [hget]
  simp only [if_pos hs]
  constructor
  · rw [getTask_addProgressLog, hid, getTask_unlockFoldl, getTask_updateTaskQ_general, hget]
    simp only [Option.map_some']
    have hbeq : (t.id == taskId) = true := beq_iff_eq.mpr hid
    rw [if_pos hbeq]
    rw [show (applyUpd ({ status := some TaskStatus.in_review,
                          assigned_to := none,
                          branch_name := none, worktree_path := none,
                          progress := some 100,
                          progress_note := some summary, started_at := none,
                          completed_at := some now,
                          merged_at := none } : TaskUpd) t).id = taskId from hid]
    rw [contains_self_getUnlockedTasks, Bool.false_and]
    rw [if_neg (by simp)]
    rw [← hid]
    rfl
  · intro u hu hne
    rw [getTask_addProgressLog, hid, getTask_unlockFoldl, getTask_updateTaskQ_general]
    rw [getTask_of_mem_nodup hnd hu]
    simp only [Option.map_some']
    have hbne : (u.id == taskId) = false := beq_eq_false_iff_ne.mpr hne
    rw [hbne]
    simp only [Bool.false_eq_true, if_false]
    congr 1
    rw [listTasksQ_updateTaskQ_group, groupDepMap_updateTaskQ]
    rw [unlocked_eq_spec st t taskId
      ({ status := some TaskStatus.in_review, progress := some 100,
         progress_note := some summary, completed_at := some now } : TaskUpd) hid]
    by_cases hgm : u ∈ listTasksQ st (some t.group_id) none
    · rw [unlockCond_map_upd_some (listTasksQ st (some t.group_id) none) taskId
        ({ status := some TaskStatus.in_review, progress := some 100,
           progress_note := some summary, completed_at := some now } : TaskUpd)
        (nodupIds_listTasksQ hnd (some t.group_id) none) hgm hbne]
      by_cases hm : u.id ∈ unlockedSpec st t
      · by_cases hb : u.status = TaskStatus.blocked
        · have hcond : ((unlockedSpec st t).contains u.id &&
              (u.status == TaskStatus.blocked)) = true := by
            rw [Bool.and_eq_true]
            exact ⟨(contains_iff_mem _ _).mpr hm, beq_iff_eq.mpr hb⟩
          rw [if_pos hcond, if_pos ⟨hm, hb⟩]
          rfl
        · have hbq : (u.status == TaskStatus.blocked) = false := beq_eq_false_iff_ne.mpr hb
          rw [hbq, Bool.and_false]
          rw [if_neg Bool.false_ne_true, if_neg (fun h => hb h.2)]
      · have hcf : (unlockedSpec st t).contains u.id = false := by
          cases hcc : (unlockedSpec st t).contains u.id with
          | false => rfl
          | true => exact absurd ((contains_iff_mem _ _).mp hcc) hm
        rw [hcf, Bool.false_and]
        rw [if_neg Bool.false_ne_true, if_neg (fun h => hm h.1)]
    · have hnone : (listTasksQ st (some t.group_id) none).find?
          (fun x => x.id == u.id) = none := by
        rw [List.find?_eq_none]
        intro w hw hbw
        exact hgm (by
          rw [← eq_of_mem_of_id_eq hnd (List.mem_of_mem_filter hw) hu (beq_iff_eq.mp hbw)]
          exact hw)
      rw [unlockCond_map_upd_none (listTasksQ st (some t.group_id) none) taskId
        ({ status := some TaskStatus.in_review, progress := some 100,
           progress_note := some summary, completed_at := some now } : TaskUpd)
        u.id hnone, Bool.and_false]
      rw [if_neg Bool.false_ne_true,
        if_neg (fun h => not_mem_unlockedSpec hnd hu hgm h.1)]

/-- C4 witness: in the concrete two-task scenario, completing `A`
puts `A` in review at progress 100 and flips the blocked dependent `B`
to `pending`. -/
theorem c4_witness :
    getTask c4State "A" = some c4TaskA ∧ c4TaskA.status = .in_progress ∧
    NodupIds c4State ∧
    getTask (completeTask c4State "A" "done" [] "t1" "L").1 "A" =
      some { c4TaskA with status := .in_review, completed_at := some "t1",
                          progress := 100, progress_note := some "done" } ∧
    getTask (completeTask c4State "A" "done" [] "t1" "L").1 "B" =
      some (if "B" ∈ unlockedSpec c4State c4TaskA ∧ c4TaskB.status = .blocked
        then { c4TaskB with status := .pending } else c4TaskB) :=
  ⟨rfl, rfl, by unfold NodupIds; decide,
   (c4_completeTask_transitions c4State "A" c4TaskA "done" [] "t1" "L"
     rfl rfl (by unfold NodupIds; decide)).1,
   (c4_completeTask_transitions c4State "A" c4TaskA "done" [] "t1" "L"
     rfl rfl (by unfold NodupIds; decide)).2 c4TaskB (by decide) (by decide)⟩

/-! ## C5 basic lemmas -/

theorem addKey_eq_setAdd (ks : List String) (k : String) :
    addKey ks k = setAdd ks k := rfl

theorem mem_addKey (ks : List String) (k x : String) :
    x ∈ addKey ks k ↔ x ∈ ks ∨ x = k := by
  rw [addKey_eq_setAdd]
  exact setAdd_mem ks k x

theorem mem_foldl_addKey_acc :
    ∀ (l ks : List String) (x : String), x ∈ ks → x ∈ l.foldl addKey ks := by
  intro l
  induction l with
  | nil => intro ks x h; exact h
  | cons b rest ih =>
    intro ks x h
    rw [List.foldl_cons]
    exact ih _ _ ((mem_addKey _ _ _).mpr (Or.inl h))

theorem mem_foldl_addKey_self :
    ∀ (l ks : List String) (b : String), b ∈ l → b ∈ l.foldl addKey ks := by
  intro l
  induction l with
  | nil => intro _ _ hb; cases hb
  | cons c rest ih =>
    intro ks b hb
    rw [List.foldl_cons]
    rcases List.mem_cons.mp hb with rfl | hm
    · exact mem_foldl_addKey_acc rest _ b ((mem_addKey _ _ _).mpr (Or.inr rfl))
    · exact ih _ _ hm

theorem mem_initKeys_foldl_acc :
    ∀ (L : DepMap) (ks : List String) (x : String), x ∈ ks →
      x ∈ L.foldl (fun ks e => e.2.foldl addKey (addKey ks e.1)) ks := by
  intro L
  induction L with
  | nil => intro ks x h; exact h
  | cons e rest ih =>
    intro ks x h
    rw [List.foldl_cons]
    exact ih _ _ (mem_foldl_addKey_acc _ _ _ ((mem_addKey _ _ _).mpr (Or.inl h)))

theorem mem_initKeys_of_mem :
    ∀ (L : DepMap) (ks : List String) (a : String) (l : List String), (a, l) ∈ L →
      a ∈ L.foldl (fun ks e => e.2.foldl addKey (addKey ks e.1)) ks ∧
      ∀ b ∈ l, b ∈ L.foldl (fun ks e => e.2.foldl addKey (addKey ks e.1)) ks := by
  intro L
  induction L with
  | nil => intro _ _ _ h; cases h
  | cons e rest ih =>
    intro ks a l h
    rw [List.foldl_cons]
    rcases List.mem_cons.mp h with rfl | hm
    · constructor
      · exact mem_initKeys_foldl_acc rest _ _
          (mem_foldl_addKey_acc _ _ _ ((mem_addKey _ _ _).mpr (Or.inr rfl)))
      · intro b hb
        exact mem_initKeys_foldl_acc rest _ _ (mem_foldl_addKey_self _ _ _ hb)
    · exact ih _ a l hm

theorem edge_src_mem {deps : DepMap} {a b : String} (h : Edge deps a b) :
    a ∈ initKeys deps := by
  unfold Edge nbrs at h
  cases hm : mget deps a with
  | none => rw [hm] at h; cases h
  | some l =>
    exact (mem_initKeys_of_mem deps [] a l (mem_of_mget hm)).1

theorem edge_tgt_mem {deps : DepMap} {a b : String} (h : Edge deps a b) :
    b ∈ initKeys deps := by
  unfold Edge nbrs at h
  cases hm : mget deps a with
  | none => rw [hm] at h; cases h
  | some l =>
    rw [hm] at h
    exact (mem_initKeys_of_mem deps [] a l (mem_of_mget hm)).2 b h

theorem addKey_nodup {ks : List String} (h : ks.Nodup) (k : String) :
    (addKey ks k).Nodup := by
  unfold addKey
  by_cases hc : ks.contains k = true
  · rw [if_pos hc]; exact h
  · rw [if_neg hc]
    rw [List.nodup_append]
    refine ⟨h, List.nodup_singleton k, ?_⟩
    intro a ha hb
    rw [List.mem_singleton] at hb
    subst hb
    exact hc ((contains_iff_mem _ _).mpr ha)

theorem foldl_addKey_nodup :
    ∀ (l ks : List String), ks.Nodup → (l.foldl addKey ks).Nodup := by
  intro l
  induction l with
  | nil => intro ks h; exact h
  | cons b rest ih =>
    intro ks h
    rw [List.foldl_cons]
    exact ih _ (addKey_nodup h b)

theorem initKeys_nodup (deps : DepMap) : (initKeys deps).Nodup := by
  unfold initKeys
  have : ∀ (L : DepMap) (ks : List String), ks.Nodup →
      (L.foldl (fun ks e => e.2.foldl addKey (addKey ks e.1)) ks).Nodup := by
    intro L
    induction L with
    | nil => intro ks h; exact h
    | cons e rest ih =>
      intro ks h
      rw [List.foldl_cons]
      exact ih _ (foldl_addKey_nodup _ _ (addKey_nodup h e.1))
  exact this deps [] List.nodup_nil

theorem le_foldr_max (rank : String → Nat) :
    ∀ (l : List String) (b : String), b ∈ l →
      rank b ≤ l.foldr (fun x acc => max (rank x) acc) 0 := by
  intro l
  induction l with
  | nil => intro b hb; cases hb
  | cons x rest ih =>
    intro b hb
    rw [List.foldr_cons]
    rcases List.mem_cons.mp hb with rfl | hm
    · exact le_max_left _ _
    · exact le_trans (ih b hm) (le_max_right _ _)

theorem filter_length_le_mono {α : Type} (p q : α → Bool)
    (hpq : ∀ x, q x = true → p x = true) :
    ∀ (l : List α), (l.filter q).length ≤ (l.filter p).length := by
  intro l
  induction l with
  | nil => exact Nat.le_refl 0
  | cons x rest ih =>
    simp only [List.filter_cons]
    cases hq : q x with
    | true =>
      rw [hpq x hq]
      simpa using ih
    | false =>
      cases hp : p x with
      | true =>
        simp only [List.length_cons]
        exact le_trans ih (Nat.le_succ _)
      | false => exact ih

theorem filter_length_lt {α : Type} (p q : α → Bool)
    (hpq : ∀ x, q x = true → p x = true) (a : α)
    (hpa : p a = true) (hqa : q a = false) :
    ∀ (l : List α), a ∈ l → (l.filter q).length < (l.filter p).length := by
  intro l
  induction l with
  | nil => intro ha; cases ha
  | cons x rest ih =>
    intro ha
    simp only [List.filter_cons]
    rcases List.mem_cons.mp ha with rfl | hm
    · rw [hpa, hqa]
      simp only [List.length_cons]
      exact Nat.lt_succ_of_le (filter_length_le_mono p q hpq rest)
    · cases hq : q x with
      | true =>
        rw [hpq x hq]
        simpa using ih hm
      | false =>
        cases hp : p x with
        | true =>
          simp only [List.length_cons]
          exact Nat.lt_succ_of_lt (ih hm)
        | false => exact ih hm

theorem wc_le_len (deps : DepMap) (st : DfsSt) :
    whitesCount deps st ≤ (initKeys deps).length :=
  List.length_filter_le _ _

theorem wc_mono (deps : DepMap) (st st' : DfsSt)
    (h : ∀ m, st'.color m = some 0 → st.color m = some 0) :
    whitesCount deps st' ≤ whitesCount deps st := by
  unfold whitesCount
  refine filter_length_le_mono _ _ (fun x hx => ?_) _
  exact beq_iff_eq.mpr (h x (beq_iff_eq.mp hx))

theorem wc_update_lt (deps : DepMap) (st : DfsSt) (node : String) (v : Option Nat)
    (hnode : node ∈ initKeys deps) (hw : st.color node = some 0) (hv : v ≠ some 0) :
    whitesCount deps { st with color := Function.update st.color node v } <
      whitesCount deps st := by
  unfold whitesCount
  refine filter_length_lt (fun n => st.color n == some 0)
      (fun n => Function.update st.color node v n == some 0)
      (fun x hx => ?_) node ?_ ?_ _ hnode
  · have hx' := beq_iff_eq.mp hx
    by_cases he : x = node
    · subst he
      rw [Function.update_same] at hx'
      exact absurd hx' hv
    · rw [Function.update_noteq he] at hx'
      exact beq_iff_eq.mpr hx'
  · exact beq_iff_eq.mpr hw
  · rw [beq_eq_false_iff_ne]
    simp only [Function.update_same]
    exact hv

theorem stack_subset_keys {deps : DepMap} {S : List String} {st : DfsSt}
    (inv : DfsInv deps S st) : ∀ x ∈ S, x ∈ initKeys deps := by
  intro x hx
  have hg := (inv.grayIff x).mpr hx
  exact (inv.keyed x).mp (by rw [hg]; rfl)

theorem stack_length_le {deps : DepMap} {S : List String} {st : DfsSt}
    (inv : DfsInv deps S st) : S.length ≤ (initKeys deps).length :=
  (List.subperm_of_subset inv.nodupS (stack_subset_keys inv)).length_le

theorem parentLinksR_congr :
    ∀ (S : List String) (par par' : String → Option (Option String)),
      (∀ x ∈ S, par' x = par x) → ParentLinksR par S → ParentLinksR par' S := by
  intro S
  induction S with
  | nil => intro _ _ _ _; trivial
  | cons x rest ih =>
    intro par par' hc hp
    cases rest with
    | nil =>
      show par' x = some none
      rw [hc x (List.mem_singleton.mpr rfl)]
      exact hp
    | cons y rest2 =>
      obtain ⟨h1, h2⟩ := hp
      exact ⟨by rw [hc x (List.mem_cons_self _ _)]; exact h1,
        ih par par' (fun z hz => hc z (List.mem_cons_of_mem _ hz)) h2⟩

theorem parentLinksR_tail {par : String → Option (Option String)}
    {x : String} {S : List String} (hp : ParentLinksR par (x :: S)) :
    ParentLinksR par S := by
  cases S with
  | nil => trivial
  | cons y rest => exact hp.2

theorem chainR_reflTransGen (deps : DepMap) :
    ∀ (rest : List String) (h : String),
      List.Chain' (fun a b => Edge deps b a) (h :: rest) →
      ∀ a ∈ h :: rest, Relation.ReflTransGen (Edge deps) a h := by
  intro rest
  induction rest with
  | nil =>
    intro h _ a ha
    rcases List.mem_singleton.mp ha with rfl
    exact Relation.ReflTransGen.refl
  | cons y rest2 ih =>
    intro h hch a ha
    rw [List.chain'_cons] at hch
    rcases List.mem_cons.mp ha with rfl | hm
    · exact Relation.ReflTransGen.refl
    · exact (ih y hch.2 a hm).tail hch.1

theorem cycle_of_gray_hit {deps : DepMap} {S : List String} {node nb : String}
    (hch : List.Chain' (fun a b => Edge deps b a) (node :: S))
    (hmem : nb ∈ node :: S) (he : Edge deps node nb) : ¬ Acyclic deps := by
  intro hac
  exact hac nb (Relation.TransGen.tail'
    (chainR_reflTransGen deps S node hch nb hmem) he)

theorem bcl_spec (par : String → Option (Option String)) :
    ∀ (rest : List String) (x : String), ParentLinksR par (x :: rest) →
      ∀ (fuel : Nat), rest.length + 1 ≤ fuel →
      ∀ (nb : String) (acc : List String), acc ≠ [] →
      ∃ c, buildCycleLoop par fuel nb x acc = some c ∧ c ≠ [] := by
  intro rest
  induction rest with
  | nil =>
    intro x hp fuel hf nb acc hacc
    cases fuel with
    | zero => exact absurd hf (by simp)
    | succ f =>
      refine ⟨acc.reverse, ?_, by simpa using hacc⟩
      show buildCycleLoop par (f + 1) nb x acc = some acc.reverse
      unfold buildCycleLoop
      rw [show par x = some none from hp]
  | cons y rest2 ih =>
    intro x hp fuel hf nb acc hacc
    cases fuel with
    | zero => exact absurd hf (by simp)
    | succ f =>
      show ∃ c, buildCycleLoop par (f + 1) nb x acc = some c ∧ c ≠ []
      unfold buildCycleLoop
      rw [hp.1]
      change ∃ c, (if y = nb then some acc.reverse
        else buildCycleLoop par f nb y (acc ++ [y])) = some c ∧ c ≠ []
      by_cases hy : y = nb
      · rw [if_pos hy]
        exact ⟨acc.reverse, rfl, by simpa using hacc⟩
      · rw [if_neg hy]
        refine ih y hp.2 f ?_ nb (acc ++ [y]) (by simp)
        simp only [List.length_cons] at hf
        omega

theorem acyclic_of_all_black (deps : DepMap) (st : DfsSt)
    (hb : ∀ n ∈ initKeys deps, st.color n = some 2)
    (hcert : ∃ rank : String → Nat, ∀ n, st.color n = some 2 →
      ∀ b, Edge deps n b → st.color b = some 2 ∧ rank b < rank n) :
    Acyclic deps := by
  obtain ⟨rank, hc⟩ := hcert
  intro n htg
  have haux : ∀ a c, Relation.TransGen (Edge deps) a c →
      st.color a = some 2 → st.color c = some 2 ∧ rank c < rank a := by
    intro a c htg
    induction htg with
    | single h => intro ha; exact hc a ha _ h
    | tail htg' h ih =>
      intro ha
      obtain ⟨hb', hr'⟩ := ih ha
      obtain ⟨hb2, hr2⟩ := hc _ hb' _ h
      exact ⟨hb2, lt_trans hr2 hr'⟩
  have hfirst : ∀ a c, Relation.TransGen (Edge deps) a c → ∃ b, Edge deps a b := by
    intro a c htg
    induction htg with
    | single h => exact ⟨_, h⟩
    | tail _ _ ih => exact ih
  obtain ⟨b, hab⟩ := hfirst n n htg
  have hnB : st.color n = some 2 := hb n (edge_src_mem hab)
  exact absurd (haux n n htg hnB).2 (lt_irrefl _)

theorem inv_parentStep {deps : DepMap} {S : List String} {st : DfsSt}
    {nb : String} (v : Option (Option String))
    (inv : DfsInv deps S st) (hnb : nb ∉ S) :
    DfsInv deps S { st with parent := Function.update st.parent nb v } := by
  refine ⟨inv.keyed, inv.grayIff, inv.nodupS, inv.chainS, ?_, inv.colorRange,
    inv.blackCert⟩
  refine parentLinksR_congr S st.parent _ (fun x hx => ?_) inv.links
  exact Function.update_noteq (fun (he : x = nb) => hnb (he ▸ hx)) _ _

theorem inv_grayStep {deps : DepMap} {S : List String} {st : DfsSt} {node : String}
    (inv : DfsInv deps S st) (hw : st.color node = some 0)
    (hpar : (S = [] ∧ st.parent node = some none) ∨
      (∃ h S2, S = h :: S2 ∧ st.parent node = some (some h) ∧ Edge deps h node)) :
    DfsInv deps (node :: S)
      { st with color := Function.update st.color node (some 1) } := by
  have hnotS : node ∉ S := fun hm => by
    have := (inv.grayIff node).mpr hm
    rw [hw] at this
    cases this
  have hK : node ∈ initKeys deps := (inv.keyed node).mp (by rw [hw]; rfl)
  refine ⟨?_, ?_, ?_, ?_, ?_, ?_, ?_⟩
  · intro n
    by_cases he : n = node
    · subst he
      simp only [Function.update_same]
      exact iff_of_true (by simp) hK
    · simp only [Function.update_noteq he]
      exact inv.keyed n
  · intro n
    by_cases he : n = node
    · subst he
      simp only [Function.update_same]
      exact iff_of_true (by trivial) (List.mem_cons_self _ _)
    · simp only [Function.update_noteq he]
      rw [inv.grayIff n, List.mem_cons]
      exact ⟨Or.inr, fun h => h.resolve_left he⟩
  · exact List.nodup_cons.mpr ⟨hnotS, inv.nodupS⟩
  · rw [List.chain'_cons']
    refine ⟨?_, inv.chainS⟩
    intro y hy
    rcases hpar with ⟨hS, _⟩ | ⟨h, S2, hS, _, he⟩
    · subst hS; cases hy
    · subst hS
      rw [List.head?_cons, Option.mem_def, Option.some_inj] at hy
      subst hy
      exact he
  · rcases hpar with ⟨hS, hpn⟩ | ⟨h, S2, hS, hpn, _⟩
    · subst hS
      exact hpn
    · subst hS
      exact ⟨hpn, inv.links⟩
  · intro n c hc
    by_cases he : n = node
    · subst he
      simp only [Function.update_same, Option.some_inj] at hc
      subst hc
      exact Or.inr (Or.inl rfl)
    · simp only [Function.update_noteq he] at hc
      exact inv.colorRange n c hc
  · obtain ⟨rank, hcert⟩ := inv.blackCert
    refine ⟨rank, fun n hn b he => ?_⟩
    have hnne : n ≠ node := by
      intro hcontra
      subst hcontra
      simp only [Function.update_same] at hn
      cases hn
    simp only [Function.update_noteq hnne] at hn
    obtain ⟨hb2, hr⟩ := hcert n hn b he
    have hbne : b ≠ node := by
      intro hcontra
      subst hcontra
      rw [hw] at hb2
      cases hb2
    simp only [Function.update_noteq hbne]
    exact ⟨hb2, hr⟩

theorem inv_blackStep {deps : DepMap} {S : List String} {st : DfsSt} {node : String}
    (inv : DfsInv deps (node :: S) st)
    (hnb : ∀ b, Edge deps node b → st.color b = some 2) :
    DfsInv deps S { st with color := Function.update st.color node (some 2) } := by
  have hgray : st.color node = some 1 :=
    (inv.grayIff node).mpr (List.mem_cons_self _ _)
  have hnotS : node ∉ S := (List.nodup_cons.mp inv.nodupS).1
  have hK : node ∈ initKeys deps := (inv.keyed node).mp (by rw [hgray]; rfl)
  refine ⟨?_, ?_, (List.nodup_cons.mp inv.nodupS).2, inv.chainS.tail,
    parentLinksR_tail inv.links, ?_, ?_⟩
  · intro n
    by_cases he : n = node
    · subst he
      simp only [Function.update_same]
      exact iff_of_true (by simp) hK
    · simp only [Function.update_noteq he]
      exact inv.keyed n
  · intro n
    by_cases he : n = node
    · subst he
      simp only [Function.update_same]
      exact iff_of_false (by simp) hnotS
    · simp only [Function.update_noteq he]
      rw [inv.grayIff n, List.mem_cons]
      exact ⟨fun h => h.resolve_left he, Or.inr⟩
  · intro n c hc
    by_cases he : n = node
    · subst he
      simp only [Function.update_same, Option.some_inj] at hc
      subst hc
      exact Or.inr (Or.inr rfl)
    · simp only [Function.update_noteq he] at hc
      exact inv.colorRange n c hc
  · obtain ⟨rank, hcert⟩ := inv.blackCert
    refine ⟨fun m => if m = node then
      (nbrs deps node).foldr (fun x acc => max (rank x) acc) 0 + 1 else rank m,
      fun n hn b he => ?_⟩
    by_cases hne : n = node
    · subst hne
      have hb2 : st.color b = some 2 := hnb b he
      have hbne : b ≠ n := by
        intro hcontra
        subst hcontra
        rw [hgray] at hb2
        cases hb2
      simp only [Function.update_noteq hbne]
      refine ⟨hb2, ?_⟩
      simp only [if_neg hbne, if_true]
      exact Nat.lt_succ_of_le (le_foldr_max rank _ b he)
    · simp only [Function.update_noteq hne] at hn
      obtain ⟨hb2, hr⟩ := hcert n hn b he
      have hbne : b ≠ node := by
        intro hcontra
        subst hcontra
        rw [hgray] at hb2
        cases hb2
      simp only [Function.update_noteq hbne]
      refine ⟨hb2, ?_⟩
      rw [if_neg hbne, if_neg hne]
      exact hr

theorem inv_init (deps : DepMap) : DfsInv deps [] (initDfsSt deps) := by
  refine ⟨?_, ?_, List.nodup_nil, List.chain'_nil, trivial, ?_, ?_⟩
  · intro n
    show (if (initKeys deps).contains n then some 0 else (none : Option Nat)).isSome
      = true ↔ _
    by_cases h : (initKeys deps).contains n = true
    · rw [if_pos h]
      exact iff_of_true rfl ((contains_iff_mem _ _).mp h)
    · rw [if_neg h]
      exact iff_of_false (by simp)
        (fun hm => h ((contains_iff_mem _ _).mpr hm))
  · intro n
    show (if (initKeys deps).contains n then some 0 else (none : Option Nat))
      = some 1 ↔ n ∈ []
    by_cases h : (initKeys deps).contains n = true
    · rw [if_pos h]
      exact iff_of_false (by simp) (by simp)
    · rw [if_neg h]
      exact iff_of_false (by simp) (by simp)
  · intro n c hc
    have hc' : (if (initKeys deps).contains n then some 0 else (none : Option Nat))
        = some c := hc
    by_cases h : (initKeys deps).contains n = true
    · rw [if_pos h, Option.some_inj] at hc'
      exact Or.inl hc'.symm
    · rw [if_neg h] at hc'
      cases hc'
  · refine ⟨fun _ => 0, fun n hn b _ => ?_⟩
    have hn' : (if (initKeys deps).contains n then some 0 else (none : Option Nat))
        = some 2 := hn
    by_cases h : (initKeys deps).contains n = true
    · rw [if_pos h, Option.some_inj] at hn'
      cases hn'
    · rw [if_neg h] at hn'
      cases hn'

theorem dfsNbrs_spec (deps : DepMap) (bf : Nat)
    (hbf : (initKeys deps).length + 1 ≤ bf)
    (fuel : Nat) (hrec : NodeSpec deps bf fuel) (node : String) (S : List String) :
    ∀ (rest : List String) (st : DfsSt),
      DfsInv deps (node :: S) st →
      (∀ nb ∈ rest, Edge deps node nb) →
      whitesCount deps st < fuel →
      ∃ res, dfsNbrs bf (dfsNode deps bf fuel) node rest st = some res ∧
        ((∃ st2, res = (st2, none) ∧ DfsInv deps (node :: S) st2 ∧
          (∀ nb ∈ rest, st2.color nb = some 2) ∧
          (∀ m, st.color m = some 2 → st2.color m = some 2) ∧
          (∀ m, st2.color m = some 0 → st.color m = some 0)) ∨
         (∃ st2 cyc, res = (st2, some cyc) ∧ cyc ≠ [] ∧ ¬ Acyclic deps)) := by
  intro rest
  induction rest with
  | nil =>
    intro st inv _ _
    exact ⟨(st, none), rfl, Or.inl ⟨st, rfl, inv,
      fun nb h => absurd h (List.not_mem_nil nb), fun _ h => h, fun _ h => h⟩⟩
  | cons nb rest2 ih =>
    intro st inv hedges hwc
    have henb : Edge deps node nb := hedges nb (List.mem_cons_self _ _)
    have hnbK : nb ∈ initKeys deps := edge_tgt_mem henb
    obtain ⟨c, hc⟩ := Option.isSome_iff_exists.mp ((inv.keyed nb).mpr hnbK)
    rcases inv.colorRange nb c hc with rfl | rfl | rfl
    · -- white neighbor: recurse
      have hnotmem : nb ∉ node :: S := fun hm => by
        have hg := (inv.grayIff nb).mpr hm
        rw [hc] at hg
        cases hg
      have inv1 : DfsInv deps (node :: S)
          { st with parent := Function.update st.parent nb (some (some node)) } :=
        inv_parentStep _ inv hnotmem
      obtain ⟨res1, hres1, hcase1⟩ := hrec nb
        { st with parent := Function.update st.parent nb (some (some node)) }
        (node :: S) inv1 hc
        (Or.inr ⟨node, S, rfl, Function.update_same _ _ _, henb⟩) hwc
      simp only [dfsNbrs]
      rw [hc]
      simp only [Option.getD_some]
      rw [if_neg (by decide), if_true]
      rw [hres1]
      rcases hcase1 with ⟨st2, rfl, inv2, hnb2, hbm2, hwa2⟩ |
        ⟨st2, cyc, rfl, hcne, hnac⟩
      · have hwc2 : whitesCount deps st2 < fuel :=
          lt_of_le_of_lt (wc_mono deps
            { st with parent := Function.update st.parent nb (some (some node)) }
            st2 hwa2) hwc
        obtain ⟨res2, hres2, hcase2⟩ := ih st2 inv2
          (fun x hx => hedges x (List.mem_cons_of_mem _ hx)) hwc2
        refine ⟨res2, hres2, ?_⟩
        rcases hcase2 with ⟨st3, rfl, inv3, hblk3, hbm3, hwa3⟩ |
          ⟨st3, cyc, rfl, h1, h2⟩
        · refine Or.inl ⟨st3, rfl, inv3, ?_, fun m hm => hbm3 m (hbm2 m hm),
            fun m hm => hwa2 m (hwa3 m hm)⟩
          intro x hx
          rcases List.mem_cons.mp hx with rfl | hx2
          · exact hbm3 x hnb2
          · exact hblk3 x hx2
        · exact Or.inr ⟨st3, cyc, rfl, h1, h2⟩
      · exact ⟨(st2, some cyc), rfl, Or.inr ⟨st2, cyc, rfl, hcne, hnac⟩⟩
    · -- gray neighbor: cycle found
      have hmem : nb ∈ node :: S := (inv.grayIff nb).mp hc
      have hlen : S.length + 1 ≤ bf := by
        have h1 := stack_length_le inv
        simp only [List.length_cons] at h1
        omega
      obtain ⟨cyc, hbcl, hcne⟩ :=
        bcl_spec st.parent S node inv.links bf hlen nb [nb, node] (by simp)
      simp only [dfsNbrs]
      rw [hc]
      simp only [Option.getD_some]
      rw [if_true]
      rw [hbcl]
      exact ⟨(st, some cyc), rfl,
        Or.inr ⟨st, cyc, rfl, hcne, cycle_of_gray_hit inv.chainS hmem henb⟩⟩
    · -- black neighbor: skip
      simp only [dfsNbrs]
      rw [hc]
      simp only [Option.getD_some]
      rw [if_neg (by decide), if_neg (by decide)]
      obtain ⟨res2, hres2, hcase2⟩ := ih st inv
        (fun x hx => hedges x (List.mem_cons_of_mem _ hx)) hwc
      refine ⟨res2, hres2, ?_⟩
      rcases hcase2 with ⟨st3, rfl, inv3, hblk3, hbm3, hwa3⟩ |
        ⟨st3, cyc, rfl, h1, h2⟩
      · refine Or.inl ⟨st3, rfl, inv3, ?_, hbm3, hwa3⟩
        intro x hx
        rcases List.mem_cons.mp hx with rfl | hx2
        · exact hbm3 x hc
        · exact hblk3 x hx2
      · exact Or.inr ⟨st3, cyc, rfl, h1, h2⟩

theorem dfsNode_spec (deps : DepMap) (bf : Nat)
    (hbf : (initKeys deps).length + 1 ≤ bf) :
    ∀ fuel, NodeSpec deps bf fuel := by
  intro fuel
  induction fuel with
  | zero =>
    intro node st S inv hw hpar hwc
    exact absurd hwc (Nat.not_lt_zero _)
  | succ fuel ih =>
    intro node st S inv hw hpar hwc
    have hK : node ∈ initKeys deps := (inv.keyed node).mp (by rw [hw]; rfl)
    have inv1 : DfsInv deps (node :: S)
        { st with color := Function.update st.color node (some 1) } :=
      inv_grayStep inv hw hpar
    have hwc1 : whitesCount deps
        { st with color := Function.update st.color node (some 1) } < fuel :=
      lt_of_lt_of_le (wc_update_lt deps st node (some 1) hK hw (by simp))
        (Nat.lt_succ_iff.mp hwc)
    obtain ⟨res1, hres1, hcase1⟩ := dfsNbrs_spec deps bf hbf fuel ih node S
      (nbrs deps node)
      { st with color := Function.update st.color node (some 1) }
      inv1 (fun nb h => h) hwc1
    simp only [dfsNode]
    rw [hres1]
    rcases hcase1 with ⟨st2, rfl, inv2, hblk, hbm, hwa⟩ |
      ⟨st2, cyc, rfl, hcne, hnac⟩
    · refine ⟨({ st2 with color := Function.update st2.color node (some 2) }, none),
        rfl, Or.inl ⟨{ st2 with color := Function.update st2.color node (some 2) },
        rfl, inv_blackStep inv2 (fun b he => hblk b he),
        Function.update_same _ _ _, ?_, ?_⟩⟩
      · intro m hm
        have hmn : m ≠ node := fun he => by
          subst he
          rw [hw] at hm
          cases hm
        have h1 : Function.update st.color node (some 1) m = some 2 := by
          rw [Function.update_noteq hmn]
          exact hm
        have h2 : st2.color m = some 2 := hbm m h1
        show Function.update st2.color node (some 2) m = some 2
        rw [Function.update_noteq hmn]
        exact h2
      · intro m hm
        have hm' : Function.update st2.color node (some 2) m = some 0 := hm
        have hmn : m ≠ node := fun he => by
          subst he
          rw [Function.update_same] at hm'
          cases hm'
        rw [Function.update_noteq hmn] at hm'
        have h1 := hwa m hm'
        have h2 : Function.update st.color node (some 1) m = some 0 := h1
        rw [Function.update_noteq hmn] at h2
        exact h2
    · exact ⟨(st2, some cyc), rfl, Or.inr ⟨st2, cyc, rfl, hcne, hnac⟩⟩

theorem validateLoop_spec (deps : DepMap) (bf : Nat)
    (hbf : (initKeys deps).length + 1 ≤ bf) :
    ∀ (ks : List String) (st : DfsSt),
      DfsInv deps [] st →
      (∀ n ∈ initKeys deps, n ∉ ks → st.color n = some 2) →
      ∃ r, validateLoop deps bf ks st = some r ∧
        (r.1 = true → Acyclic deps) ∧
        (r.1 = false → ∃ c, r.2 = some c ∧ c ≠ [] ∧ ¬ Acyclic deps) := by
  intro ks
  induction ks with
  | nil =>
    intro st inv hproc
    refine ⟨(true, none), rfl, fun _ => ?_, fun h => absurd h (by decide)⟩
    exact acyclic_of_all_black deps st
      (fun n hn => hproc n hn (List.not_mem_nil n)) inv.blackCert
  | cons k rest ih =>
    intro st inv hproc
    by_cases hw : st.color k = some 0
    · have inv1 : DfsInv deps []
          { st with parent := Function.update st.parent k (some none) } :=
        inv_parentStep _ inv (List.not_mem_nil k)
      have hwck : whitesCount deps
          { st with parent := Function.update st.parent k (some none) } < bf :=
        lt_of_le_of_lt (wc_le_len deps _) (by omega)
      obtain ⟨res1, hres1, hcase1⟩ := dfsNode_spec deps bf hbf bf k
        { st with parent := Function.update st.parent k (some none) } []
        inv1 hw (Or.inl ⟨rfl, Function.update_same _ _ _⟩) hwck
      simp only [validateLoop]
      rw [if_pos hw]
      rw [hres1]
      rcases hcase1 with ⟨st2, rfl, inv2, hk2, hbm2, hwa2⟩ |
        ⟨st2, cyc, rfl, hcne, hnac⟩
      · obtain ⟨r, hr, h1, h2⟩ := ih st2 inv2 (fun n hn hnr => by
          by_cases he : n = k
          · subst he
            exact hk2
          · have hnm : n ∉ k :: rest := fun hm => (List.mem_cons.mp hm).elim he hnr
            exact hbm2 n (hproc n hn hnm))
        exact ⟨r, hr, h1, h2⟩
      · exact ⟨(false, some cyc), rfl, fun h => absurd h Bool.false_ne_true,
          fun _ => ⟨cyc, rfl, hcne, hnac⟩⟩
    · simp only [validateLoop]
      rw [if_neg hw]
      refine ih st inv (fun n hn hnr => ?_)
      by_cases he : n = k
      · subst he
        obtain ⟨c, hc⟩ := Option.isSome_iff_exists.mp ((inv.keyed n).mpr hn)
        rcases inv.colorRange n c hc with rfl | rfl | rfl
        · exact absurd hc hw
        · exact absurd ((inv.grayIff n).mp hc) (List.not_mem_nil n)
        · exact hc
      · exact hproc n hn (fun hm => (List.mem_cons.mp hm).elim he hnr)

/-- C5: for every dependency map, `validate_no_cycles` terminates (the
fuel of the embedding is never exhausted) and returns `valid = true`
exactly when the graph is acyclic; when it returns `valid = false` it
also returns a nonempty cycle path; and on the self-loop `A → A` it
returns `valid = false` with a cycle containing `A`. -/
theorem c5_validateNoCycles :
    (∀ deps : DepMap, ∃ r, validateNoCyclesO deps = some r ∧
      (r.1 = true ↔ Acyclic deps) ∧
      (r.1 = false → ∃ p, r.2 = some p ∧ p ≠ [])) ∧
    (∃ p, validateNoCyclesO [("A", ["A"])] = some (false, some p) ∧ "A" ∈ p) := by
  constructor
  · intro deps
    obtain ⟨r, hr, h1, h2⟩ := validateLoop_spec deps
      ((initKeys deps).length + 1) (le_refl _) (initKeys deps)
      (initDfsSt deps) (inv_init deps) (fun n hn hnn => absurd hn hnn)
    refine ⟨r, hr, ⟨fun ht => h1 ht, fun hac => ?_⟩, fun hf => ?_⟩
    · cases hv : r.1 with
      | true => rfl
      | false =>
        obtain ⟨c, _, _, hnac⟩ := h2 hv
        exact absurd hac hnac
    · obtain ⟨c, hc, hcne, _⟩ := h2 hf
      exact ⟨c, hc, hcne⟩
  · exact ⟨["A", "A"], rfl, by decide⟩

end ATA
